import Mathlib

/-!
Verification of the irdata authentication core (auth.go).

The embedding models bytes as `Nat` (with an explicit `< 256` validity
predicate), byte strings as `List Nat`, and the external library calls of
the source at their documented contracts:

* `base64.StdEncoding.Strict()` is embedded as a concrete RFC 4648 padded
  base64 codec (`encB64` / `decB64`).  The Go decoder additionally skips
  CR/LF bytes; the embedding rejects them, which agrees with the Go
  behaviour on every input exercised here (a skipped byte leaves a
  quantum of length ≢ 0 mod 4, which Go also rejects).
* `cipher.NewGCM(aes)` Seal/Open is embedded as an ideal authenticated
  encryption scheme (`gcmSeal` / `gcmOpen`): sealing is an injective
  encoding of key, nonce, associated data and plaintext, and opening
  succeeds exactly on sealed values produced with the same key, nonce and
  associated data, returning the original plaintext.  This captures the
  AEAD integrity contract the source relies on.
* `encoding/gob` for the two-field credentials record is embedded as a
  deterministic, injective, self-delimiting serializer (`gobEnc`/`gobDec`).
* `crypto/sha256` is embedded as a full executable SHA-256.
* `log.Panic` abort sites are embedded as distinct error values, one per
  abort site, so each failure path is observable.

The HTTP client is external to the core; `auth` is embedded as a function
of the stream of login POST results and the verification GET result, and
it returns, besides the final flag and outcome, the number of POSTs and
GETs issued and the list of backoff sleeps performed, so the retry policy
is fully observable.
-/

deriving instance DecidableEq for Except

namespace Irapi

/-- A byte string: every element fits in one octet. -/
def ValidBytes (l : List Nat) : Prop := ∀ b ∈ l, b < 256

instance : DecidablePred ValidBytes := fun l =>
  inferInstanceAs (Decidable (∀ b ∈ l, b < 256))

/-! ### base64 (model of `base64.StdEncoding.Strict()`) -/

/-- The standard base64 alphabet, as a function from sextet to ASCII code. -/
def b64alpha (s : Nat) : Nat :=
  if s < 26 then 65 + s
  else if s < 52 then 97 + (s - 26)
  else if s < 62 then 48 + (s - 52)
  else if s = 62 then 43
  else 47

/-- Inverse alphabet lookup; `none` on any ASCII code outside the strict
standard alphabet (padding `=` included). -/
def b64unalpha (c : Nat) : Option Nat :=
  if 65 ≤ c ∧ c ≤ 90 then some (c - 65)
  else if 97 ≤ c ∧ c ≤ 122 then some (c - 97 + 26)
  else if 48 ≤ c ∧ c ≤ 57 then some (c - 48 + 52)
  else if c = 43 then some 62
  else if c = 47 then some 63
  else none

/-- Padded standard base64 encoding of a byte string (ASCII codes out). -/
def encB64 : List Nat → List Nat
  | [] => []
  | [a] => [b64alpha (a / 4), b64alpha (a % 4 * 16), 61, 61]
  | [a, b] => [b64alpha (a / 4), b64alpha (a % 4 * 16 + b / 16), b64alpha (b % 16 * 4), 61]
  | a :: b :: c :: rest =>
      b64alpha (a / 4) :: b64alpha (a % 4 * 16 + b / 16) ::
        b64alpha (b % 16 * 4 + c / 64) :: b64alpha (c % 64) :: encB64 rest

/-- Strict padded base64 decoding: requires whole 4-character quanta,
padding only in the final quantum, and zero trailing bits (the extra check
enabled by Go's `Strict()`). -/
def decB64 : List Nat → Option (List Nat)
  | [] => some []
  | c1 :: c2 :: c3 :: c4 :: rest =>
      match b64unalpha c1, b64unalpha c2 with
      | some s1, some s2 =>
          if c3 = 61 then
            if c4 = 61 ∧ rest = [] ∧ s2 % 16 = 0 then
              some [s1 * 4 + s2 / 16]
            else none
          else
            match b64unalpha c3 with
            | some s3 =>
                if c4 = 61 then
                  if rest = [] ∧ s3 % 4 = 0 then
                    some [s1 * 4 + s2 / 16, s2 % 16 * 16 + s3 / 4]
                  else none
                else
                  match b64unalpha c4 with
                  | some s4 =>
                      (decB64 rest).map
                        (fun d => (s1 * 4 + s2 / 16) :: (s2 % 16 * 16 + s3 / 4) ::
                          (s3 % 4 * 64 + s4) :: d)
                  | none => none
            | none => none
      | _, _ => none
  | _ => none

/-! ### Ideal AEAD (model of the `cipher.AEAD` built in `writeCreds`/`readCreds`) -/

/-- Unary length marker: `n` ones followed by a zero. -/
def unaryLen (n : Nat) : List Nat := List.replicate n 1 ++ [0]

/-- A length-framed byte string: unary length marker, then the payload. -/
def frame (l : List Nat) : List Nat := unaryLen l.length ++ l

/-- Ideal AEAD sealing: an injective, self-delimiting encoding of the key,
nonce, associated data and plaintext (the plaintext twice, giving the
redundancy a real authentication tag provides).  Stands for
`aesgcm.Seal(nil, nonce, plaintext, ad)`. -/
def gcmSeal (key nonce pt ad : List Nat) : List Nat :=
  frame key ++ (frame nonce ++ (frame ad ++ (frame pt ++ frame pt)))

/-- The candidate plaintext an opener reads off sealed bytes: the final
`m` bytes, where `m` is determined by the sealed length and the key,
nonce and associated-data lengths. -/
def gcmOpenPt (key nonce sealed ad : List Nat) : List Nat :=
  sealed.drop (sealed.length -
    (sealed.length - (2 * (key.length + nonce.length + ad.length) + 5)) / 4)

/-- Ideal AEAD opening: accepts exactly the values `gcmSeal` produces for
the same key, nonce and associated data, and returns the plaintext sealed
there; anything else is an authentication failure (`none`).  Stands for
`aesgcm.Open(nil, nonce, sealed, ad)`. -/
def gcmOpen (key nonce sealed ad : List Nat) : Option (List Nat) :=
  if sealed = gcmSeal key nonce (gcmOpenPt key nonce sealed ad) ad then
    some (gcmOpenPt key nonce sealed ad)
  else none

/-! ### Credentials record and its gob serialization -/

/-- The credentials record (`authDataT` in the source); both fields are
byte strings (Go strings are byte strings). -/
structure authDataT where
  Username : List Nat
  EncodedPassword : List Nat
deriving DecidableEq, Repr

/-- Deterministic binary serialization of `authDataT` (contract model of
`gob.Encoder.Encode`): both fields, each length-framed. -/
def gobEnc (a : authDataT) : List Nat := frame a.Username ++ frame a.EncodedPassword

/-- Read one unary length marker off the front. -/
def splitUnary : List Nat → Option (Nat × List Nat)
  | [] => none
  | 0 :: rest => some (0, rest)
  | 1 :: rest => (splitUnary rest).map (fun p => (p.1 + 1, p.2))
  | _ => none

/-- Read one length-framed byte string off the front. -/
def parseFrame (s : List Nat) : Option (List Nat × List Nat) :=
  (splitUnary s).bind fun p =>
    if p.1 ≤ p.2.length then some (p.2.take p.1, p.2.drop p.1) else none

/-- Deserialization inverse of `gobEnc` (contract model of
`gob.Decoder.Decode`). -/
def gobDec (s : List Nat) : Option authDataT :=
  (parseFrame s).bind fun u =>
    (parseFrame u.2).bind fun p =>
      if p.2 = [] then some ⟨u.1, p.1⟩ else none

/-! ### Key handling and the credential store -/

/-- One error value per `log.Panic` site of the credential-store half of
the source, so every abort path is distinguishable. -/
inductive CredErr where
  | permErr        -- getKey: key file permissions are not exactly 0400
  | keyB64Err      -- getKey: key file content is not valid base64
  | keySizeErr     -- aes.NewCipher: key length not 16, 24 or 32
  | b64FormatErr   -- readCreds: credential file is not valid base64
  | sliceBoundsErr -- readCreds: decoded data shorter than the nonce (Go slice-bounds panic)
  | integrityErr   -- readCreds: aesgcm.Open authentication failure
  | gobErr         -- readCreds: gob decode failure
deriving DecidableEq, Repr

/-- `getKey`: reject any permission bits other than owner-read-only 0400,
then base64-decode the key file content.  `mode % 512` is
`stat.Mode() & os.ModePerm`. -/
def getKey (mode : Nat) (content : List Nat) : Except CredErr (List Nat) :=
  if mode % 512 ≠ 256 then .error .permErr
  else
    match decB64 content with
    | none => .error .keyB64Err
    | some key => .ok key

/-- `shred`: overwrite every byte of the key with the fixed sentinel 0x69. -/
def shred (key : List Nat) : List Nat := key.map (fun _ => 105)

/-- `aes.NewCipher` succeeds exactly on the three AES key sizes. -/
def aesKeyOk (key : List Nat) : Bool :=
  key.length = 16 || key.length = 24 || key.length = 32

/-- GCM nonce size for an AES block cipher. -/
def gcmNonceSize : Nat := 12

/-- The fixed associated-data context tag, `[]byte("irdata.auth")`. -/
def additionalContext : List Nat := [105, 114, 100, 97, 116, 97, 46, 97, 117, 116, 104]

/-- Result of a credential-store operation, together with the final
contents of the in-memory key buffer (`none` when the key was never
loaded, i.e. `getKey` aborted before the buffer existed). -/
structure CredOutcome (α : Type) where
  result : Except CredErr α
  keyMem : Option (List Nat)
deriving Repr

/-- `writeCreds`: load the key, build the cipher, shred the key (before
the error check, exactly as in the source), seal the gob-encoded record
with a fresh `nonce` prepended (`aesgcm.Seal(nonce, nonce, buf, ctx)`),
and base64-encode the result — which is the content written to the
credentials file and returned here. -/
def writeCreds (mode : Nat) (keyContent : List Nat) (authData : authDataT)
    (nonce : List Nat) : CredOutcome (List Nat) :=
  match getKey mode keyContent with
  | .error e => ⟨.error e, none⟩
  | .ok key =>
      let mem := shred key
      if aesKeyOk key then
        ⟨.ok (encB64 (nonce ++ gcmSeal key nonce (gobEnc authData) additionalContext)),
          some mem⟩
      else ⟨.error .keySizeErr, some mem⟩

/-- The unguarded nonce split of `readCreds`
(`data[:aesgcm.NonceSize()]` / `data[aesgcm.NonceSize():]`): in Go the
slice expression panics when the decoded data is shorter than the nonce
size, so the embedding returns `none` there. -/
def nonceSplit (data : List Nat) : Option (List Nat × List Nat) :=
  if data.length < gcmNonceSize then none
  else some (data.take gcmNonceSize, data.drop gcmNonceSize)

/-- `readCreds`: load the key, build the cipher, shred the key, read and
base64-decode the credentials file, split off the nonce, open, and gob
decode. -/
def readCreds (mode : Nat) (keyContent fileContent : List Nat) : CredOutcome authDataT :=
  match getKey mode keyContent with
  | .error e => ⟨.error e, none⟩
  | .ok key =>
      let mem := shred key
      if aesKeyOk key then
        match decB64 fileContent with
        | none => ⟨.error .b64FormatErr, some mem⟩
        | some data =>
            match nonceSplit data with
            | none => ⟨.error .sliceBoundsErr, some mem⟩
            | some ns =>
                match gcmOpen key ns.1 ns.2 additionalContext with
                | none => ⟨.error .integrityErr, some mem⟩
                | some pt =>
                    match gobDec pt with
                    | none => ⟨.error .gobErr, some mem⟩
                    | some a => ⟨.ok a, some mem⟩
      else ⟨.error .keySizeErr, some mem⟩

/-! ### SHA-256 (model of `crypto/sha256`) and the password encoder -/

/-- Truncate to a 32-bit word. -/
def w32 (x : Nat) : Nat := x % 4294967296

/-- Right rotation of a 32-bit word. -/
def rotr32 (n x : Nat) : Nat := x / 2 ^ n + x % 2 ^ n * 2 ^ (32 - n)

/-- SHA-256 Ch: `(x AND y) XOR ((NOT x) AND z)`; complement taken inside
32 bits (all inputs are kept reduced). -/
def shaCh (x y z : Nat) : Nat := (x &&& y) ^^^ ((4294967295 - x) &&& z)

/-- SHA-256 Maj. -/
def shaMaj (x y z : Nat) : Nat := (x &&& y) ^^^ (x &&& z) ^^^ (y &&& z)

/-- SHA-256 big sigma 0. -/
def bsig0 (x : Nat) : Nat := rotr32 2 x ^^^ rotr32 13 x ^^^ rotr32 22 x

/-- SHA-256 big sigma 1. -/
def bsig1 (x : Nat) : Nat := rotr32 6 x ^^^ rotr32 11 x ^^^ rotr32 25 x

/-- SHA-256 small sigma 0. -/
def ssig0 (x : Nat) : Nat := rotr32 7 x ^^^ rotr32 18 x ^^^ x / 8

/-- SHA-256 small sigma 1. -/
def ssig1 (x : Nat) : Nat := rotr32 17 x ^^^ rotr32 19 x ^^^ x / 1024

/-- The 64 SHA-256 round constants. -/
def shaK : List Nat :=
  [1116352408, 1899447441, 3049323471, 3921009573, 961987163, 1508970993,
   2453635748, 2870763221, 3624381080, 310598401, 607225278, 1426881987,
   1925078388, 2162078206, 2614888103, 3248222580, 3835390401, 4022224774,
   264347078, 604807628, 770255983, 1249150122, 1555081692, 1996064986,
   2554220882, 2821834349, 2952996808, 3210313671, 3336571891, 3584528711,
   113926993, 338241895, 666307205, 773529912, 1294757372, 1396182291,
   1695183700, 1986661051, 2177026350, 2456956037, 2730485921, 2820302411,
   3259730800, 3345764771, 3516065817, 3600352804, 4094571909, 275423344,
   430227734, 506948616, 659060556, 883997877, 958139571, 1322822218,
   1537002063, 1747873779, 1955562222, 2024104815, 2227730452, 2361852424,
   2428436474, 2756734187, 3204031479, 3329325298]

/-- The SHA-256 initial hash state. -/
def shaH0 : List Nat :=
  [1779033703, 3144134277, 1013904242, 2773480762,
   1359893119, 2600822924, 528734635, 1541459225]

/-- Big-endian 8-byte encoding of the message bit length. -/
def lenBytes8 (n : Nat) : List Nat :=
  [n / 2 ^ 56 % 256, n / 2 ^ 48 % 256, n / 2 ^ 40 % 256, n / 2 ^ 32 % 256,
   n / 2 ^ 24 % 256, n / 2 ^ 16 % 256, n / 2 ^ 8 % 256, n % 256]

/-- SHA-256 padding: 0x80, zeros to 56 mod 64, then the bit length. -/
def padMsg (msg : List Nat) : List Nat :=
  msg ++ [128] ++ List.replicate ((64 - (msg.length + 9) % 64) % 64) 0 ++
    lenBytes8 (8 * msg.length)

/-- Big-endian 32-bit words from bytes. -/
def toWords : List Nat → List Nat
  | a :: b :: c :: d :: rest => (a * 16777216 + b * 65536 + c * 256 + d) :: toWords rest
  | _ => []

/-- One message-schedule extension step. -/
def stepW (w : List Nat) : List Nat :=
  w ++ [w32 (ssig1 (w.getD (w.length - 2) 0) + w.getD (w.length - 7) 0 +
    ssig0 (w.getD (w.length - 15) 0) + w.getD (w.length - 16) 0)]

/-- The full 64-word message schedule of one block. -/
def fullW (block : List Nat) : List Nat := stepW^[48] block

/-- One SHA-256 compression round on the 8-word working state. -/
def shaRound (st : List Nat) (ki wi : Nat) : List Nat :=
  match st with
  | [a, b, c, d, e, f, g, h] =>
      let t1 := w32 (h + bsig1 e + shaCh e f g + ki + wi)
      let t2 := w32 (bsig0 a + shaMaj a b c)
      [w32 (t1 + t2), a, b, c, w32 (d + t1), e, f, g]
  | other => other

/-- Compress one 16-word block into the hash state. -/
def compressBlock (h block : List Nat) : List Nat :=
  let st := (List.zip shaK (fullW block)).foldl (fun st kw => shaRound st kw.1 kw.2) h
  List.zipWith (fun x y => w32 (x + y)) h st

/-- Process all 16-word blocks of the padded message (the padded message
always has a whole number of 16-word blocks). -/
def processBlocks (h : List Nat) : List Nat → List Nat
  | w0 :: w1 :: w2 :: w3 :: w4 :: w5 :: w6 :: w7 ::
      w8 :: w9 :: w10 :: w11 :: w12 :: w13 :: w14 :: w15 :: rest =>
      processBlocks (compressBlock h
        [w0, w1, w2, w3, w4, w5, w6, w7, w8, w9, w10, w11, w12, w13, w14, w15]) rest
  | _ => h

/-- SHA-256 of a byte string, as 32 digest bytes. -/
def sha256Bytes (msg : List Nat) : List Nat :=
  (processBlocks shaH0 (toWords (padMsg msg))).foldr
    (fun w acc => w / 16777216 % 256 :: w / 65536 % 256 :: w / 256 % 256 :: w % 256 :: acc) []

/-- ASCII lower-casing of a byte string (model of `strings.ToLower` on the
ASCII usernames this system handles). -/
def toLowerBytes (u : List Nat) : List Nat :=
  u.map (fun b => if 65 ≤ b ∧ b ≤ 90 then b + 32 else b)

/-- `encodePassword`: standard padded base64 of the SHA-256 digest of the
raw password bytes followed by the lower-cased username bytes. -/
def encodePassword (username password : List Nat) : List Nat :=
  encB64 (sha256Bytes (password ++ toLowerBytes username))

/-! ### The authentication session -/

/-- The session owner (`Irdata`); the source file only touches its
process-wide `isAuthed` flag. -/
structure Irdata where
  isAuthed : Bool
deriving DecidableEq, Repr

/-- Modelled from the spec: the `Irdata` struct is declared outside this
source file; per the spec the authenticated flag starts out false (which
is also the Go zero value). -/
def initIrdata : Irdata := ⟨false⟩

/-- Result of the login POST loop: a transport-level failure aborts the
whole call (in the source, `resp.StatusCode` on a nil response), or the
loop hands a final response status to the code after it.  Both carry the
number of POSTs made so far and the accumulated backoff sleeps
(in seconds). -/
inductive LoopRes where
  | transportAbort (posts : Nat) (sleeps : List Nat)
  | gotResp (status : Nat) (posts : Nat) (sleeps : List Nat)
deriving DecidableEq, Repr

/-- The login attempt loop of `auth`: POST; stop on any status below 500;
otherwise decrement the retry budget, sleep `(6 - retries) * 5` seconds
with the decremented value, and loop while the budget is positive.
`post i` is the result of the i-th POST (`none` = transport failure). -/
def authLoop (post : Nat → Option Nat) : Nat → Nat → List Nat → LoopRes
  | idx, 0, sleeps => .transportAbort idx sleeps
  | idx, retries + 1, sleeps =>
      match post idx with
      | none => .transportAbort (idx + 1) sleeps
      | some st =>
          if st < 500 then .gotResp st (idx + 1) sleeps
          else if retries = 0 then .gotResp st (idx + 1) (sleeps ++ [(6 - retries) * 5])
          else authLoop post (idx + 1) retries (sleeps ++ [(6 - retries) * 5])

/-- Outcome of one `auth` call; `panicked` covers the `log.Panic` /
nil-dereference abort paths (transport failures). -/
inductive AuthOutcome where
  | ok
  | preconditionErr   -- "must provide credentials before calling"
  | authFailedErr     -- "unexpected auth failure, try debug"
  | invalidCredsErr   -- "login failed, check creds"
  | panicked
deriving DecidableEq, Repr

/-- Observable result of one `auth` call: the new flag value, the outcome,
the number of login POSTs and verification GETs issued, and the backoff
sleeps performed. -/
structure AuthResult where
  isAuthed : Bool
  outcome : AuthOutcome
  posts : Nat
  gets : Nat
  sleeps : List Nat
deriving DecidableEq, Repr

/-- `auth`: return immediately when already authenticated; reject empty
credentials; run the login loop (5 tries); require status 200; verify
with one GET (`retryingGet`, an external collaborator, `none` = failure);
on 200 set the flag, on 401 report bad credentials, otherwise a generic
auth failure. -/
def auth (i : Irdata) (authData : authDataT) (post : Nat → Option Nat)
    (get : Option Nat) : AuthResult :=
  if i.isAuthed then ⟨true, .ok, 0, 0, []⟩
  else if authData.EncodedPassword = [] then ⟨i.isAuthed, .preconditionErr, 0, 0, []⟩
  else
    match authLoop post 0 5 [] with
    | .transportAbort p s => ⟨i.isAuthed, .panicked, p, 0, s⟩
    | .gotResp status p s =>
        if status ≠ 200 then ⟨i.isAuthed, .authFailedErr, p, 0, s⟩
        else
          match get with
          | none => ⟨i.isAuthed, .panicked, p, 1, s⟩
          | some gs =>
              if gs ≠ 200 then
                if gs = 401 then ⟨i.isAuthed, .invalidCredsErr, p, 1, s⟩
                else ⟨i.isAuthed, .authFailedErr, p, 1, s⟩
              else ⟨true, .ok, p, 1, s⟩

/-- Flip bit `j` of the byte at position `i`. -/
def flipBit (l : List Nat) (i j : Nat) : List Nat :=
  l.modify (fun b => b ^^^ 2 ^ j) i

/-- The backoff sleeps performed after `k` consecutive retryable (≥ 500)
responses, starting from a retry budget of `retries`. -/
def backoffs (retries k : Nat) : List Nat :=
  (List.range k).map (fun j => (6 - (retries - 1 - j)) * 5)

/-- Little-endian base-256 value of a byte string (used to count digests). -/
def byteVal : List Nat → Nat
  | [] => 0
  | b :: rest => b + 256 * byteVal rest

/-- Canonical little-endian base-256 byte string of a number (used to
produce arbitrarily many distinct messages). -/
def natToBytes (n : Nat) : List Nat :=
  if h : n = 0 then [] else n % 256 :: natToBytes (n / 256)
termination_by n
decreasing_by exact Nat.div_lt_self (Nat.pos_of_ne_zero h) (by omega)

/-! ## Lemmas: the base64 alphabet -/

theorem b64alpha_lt (s : Nat) : b64alpha s < 256 := by
  unfold b64alpha
  (repeat' split) <;> omega

theorem b64alpha_ne_61 (s : Nat) : b64alpha s ≠ 61 := by
  unfold b64alpha
  (repeat' split) <;> omega

theorem b64unalpha_alpha : ∀ s, s < 64 → b64unalpha (b64alpha s) = some s := by decide

theorem b64alpha_unalpha {c s : Nat} (h : b64unalpha c = some s) :
    b64alpha s = c ∧ s < 64 := by
  unfold b64unalpha at h
  split at h
  next h1 =>
    obtain rfl := Option.some.inj h
    exact ⟨by unfold b64alpha; (repeat' split) <;> omega, by omega⟩
  next =>
  split at h
  next h1 =>
    obtain rfl := Option.some.inj h
    exact ⟨by unfold b64alpha; (repeat' split) <;> omega, by omega⟩
  next =>
  split at h
  next h1 =>
    obtain rfl := Option.some.inj h
    exact ⟨by unfold b64alpha; (repeat' split) <;> omega, by omega⟩
  next =>
  split at h
  next h1 =>
    obtain rfl := Option.some.inj h
    subst h1
    exact ⟨by unfold b64alpha; (repeat' split) <;> omega, by omega⟩
  next =>
  split at h
  next h1 =>
    obtain rfl := Option.some.inj h
    subst h1
    exact ⟨by unfold b64alpha; (repeat' split) <;> omega, by omega⟩
  next => exact absurd h (by simp)

/-! ## Lemmas: base64 round trip and canonicity -/

theorem encB64_valid : ∀ d, ValidBytes (encB64 d)
  | [] => by intro x hx; simp [encB64] at hx
  | [a] => by
      intro x hx
      simp only [encB64, List.mem_cons, List.not_mem_nil, or_false] at hx
      rcases hx with rfl | rfl | rfl | rfl
      · exact b64alpha_lt _
      · exact b64alpha_lt _
      · omega
      · omega
  | [a, b] => by
      intro x hx
      simp only [encB64, List.mem_cons, List.not_mem_nil, or_false] at hx
      rcases hx with rfl | rfl | rfl | rfl
      · exact b64alpha_lt _
      · exact b64alpha_lt _
      · exact b64alpha_lt _
      · omega
  | a :: b :: c :: (rest : List Nat) => by
      intro x hx
      simp only [encB64, List.mem_cons] at hx
      rcases hx with rfl | rfl | rfl | rfl | hx
      · exact b64alpha_lt _
      · exact b64alpha_lt _
      · exact b64alpha_lt _
      · exact b64alpha_lt _
      · exact encB64_valid rest x hx

theorem decB64_encB64 : ∀ d, ValidBytes d → decB64 (encB64 d) = some d
  | [], _ => rfl
  | [a], h => by
      have ha : a < 256 := h a (by simp)
      have e1 := b64unalpha_alpha (a / 4) (by omega)
      have e2 := b64unalpha_alpha (a % 4 * 16) (by omega)
      simp [encB64, decB64, e1, e2, show a % 4 * 16 % 16 = 0 by omega]
      omega
  | [a, b], h => by
      have ha : a < 256 := h a (by simp)
      have hb : b < 256 := h b (by simp)
      have e1 := b64unalpha_alpha (a / 4) (by omega)
      have e2 := b64unalpha_alpha (a % 4 * 16 + b / 16) (by omega)
      have e3 := b64unalpha_alpha (b % 16 * 4) (by omega)
      simp [encB64, decB64, e1, e2, e3, b64alpha_ne_61,
        show b % 16 * 4 % 4 = 0 by omega]
      omega
  | a :: b :: c :: (rest : List Nat), h => by
      have ha : a < 256 := h a (by simp)
      have hb : b < 256 := h b (by simp)
      have hc : c < 256 := h c (by simp)
      have ih := decB64_encB64 rest (fun x hx => h x (by simp [hx]))
      have e1 := b64unalpha_alpha (a / 4) (by omega)
      have e2 := b64unalpha_alpha (a % 4 * 16 + b / 16) (by omega)
      have e3 := b64unalpha_alpha (b % 16 * 4 + c / 64) (by omega)
      have e4 := b64unalpha_alpha (c % 64) (by omega)
      simp [encB64, decB64, e1, e2, e3, e4, b64alpha_ne_61, ih,
        show a / 4 * 4 + (a % 4 * 16 + b / 16) / 16 = a by omega,
        show (a % 4 * 16 + b / 16) % 16 * 16 + (b % 16 * 4 + c / 64) / 4 = b by omega,
        show (b % 16 * 4 + c / 64) % 4 * 64 + c % 64 = c by omega]

/-- Elimination principle for a successful decode of one base64 quantum:
the three shapes a quantum can have (two pads, one pad, full). -/
theorem decB64_cons_elim {c1 c2 c3 c4 : Nat} {rest d : List Nat}
    (h : decB64 (c1 :: c2 :: c3 :: c4 :: rest) = some d) :
    ∃ s1 s2, b64unalpha c1 = some s1 ∧ b64unalpha c2 = some s2 ∧
      ((c3 = 61 ∧ c4 = 61 ∧ rest = [] ∧ s2 % 16 = 0 ∧ d = [s1 * 4 + s2 / 16]) ∨
       (∃ s3, c3 ≠ 61 ∧ b64unalpha c3 = some s3 ∧ c4 = 61 ∧ rest = [] ∧ s3 % 4 = 0 ∧
         d = [s1 * 4 + s2 / 16, s2 % 16 * 16 + s3 / 4]) ∨
       (∃ s3 s4 dd, c3 ≠ 61 ∧ c4 ≠ 61 ∧ b64unalpha c3 = some s3 ∧ b64unalpha c4 = some s4 ∧
         decB64 rest = some dd ∧
         d = (s1 * 4 + s2 / 16) :: (s2 % 16 * 16 + s3 / 4) :: (s3 % 4 * 64 + s4) :: dd)) := by
  unfold decB64 at h
  rcases h1 : b64unalpha c1 with _ | s1 <;> rcases h2 : b64unalpha c2 with _ | s2 <;>
      rw [h1, h2] at h
  · simp at h
  · simp at h
  · simp at h
  simp only [] at h
  refine ⟨s1, s2, rfl, rfl, ?_⟩
  by_cases hc3 : c3 = 61
  · rw [if_pos hc3] at h
    split at h
    next hcond =>
      exact Or.inl ⟨hc3, hcond.1, hcond.2.1, hcond.2.2, (Option.some.inj h).symm⟩
    next => simp at h
  · rw [if_neg hc3] at h
    rcases h3 : b64unalpha c3 with _ | s3 <;> rw [h3] at h <;> simp only [] at h
    · simp at h
    by_cases hc4 : c4 = 61
    · rw [if_pos hc4] at h
      split at h
      next hcond =>
        exact Or.inr (Or.inl ⟨s3, hc3, rfl, hc4, hcond.1, hcond.2, (Option.some.inj h).symm⟩)
      next => simp at h
    · rw [if_neg hc4] at h
      rcases h4 : b64unalpha c4 with _ | s4 <;> rw [h4] at h <;> simp only [] at h
      · simp at h
      rcases h5 : decB64 rest with _ | dd <;> rw [h5] at h
      · simp at h
      exact Or.inr (Or.inr ⟨s3, s4, dd, hc3, hc4, rfl, rfl, rfl, by simpa using h.symm⟩)

/-- Strict base64 decoding is canonical: a successful decode means the
input is exactly the encoding of the output (so decoding is injective),
and the output is a byte string. -/
theorem decB64_canon : ∀ s d, decB64 s = some d → encB64 d = s ∧ ValidBytes d
  | [], d, h => by
      obtain rfl : d = [] := by simpa [decB64] using h.symm
      exact ⟨rfl, by intro x hx; simp at hx⟩
  | [_], d, h => by simp [decB64] at h
  | [_, _], d, h => by simp [decB64] at h
  | [_, _, _], d, h => by simp [decB64] at h
  | c1 :: c2 :: c3 :: c4 :: (rest : List Nat), d, h => by
      obtain ⟨s1, s2, h1, h2, hcase⟩ := decB64_cons_elim h
      obtain ⟨ha1, hs1⟩ := b64alpha_unalpha h1
      obtain ⟨ha2, hs2⟩ := b64alpha_unalpha h2
      rcases hcase with ⟨hc3, hc4, hrest, hs2m, rfl⟩ | ⟨s3, hc3, h3, hc4, hrest, hs3m, rfl⟩ |
        ⟨s3, s4, dd, hc3, hc4, h3, h4, hdec, rfl⟩
      · subst hc3; subst hc4; subst hrest
        refine ⟨?_, ?_⟩
        · simp only [encB64]
          rw [show (s1 * 4 + s2 / 16) / 4 = s1 by omega,
            show (s1 * 4 + s2 / 16) % 4 * 16 = s2 by omega, ha1, ha2]
        · intro x hx; simp at hx; omega
      · obtain ⟨ha3, hs3⟩ := b64alpha_unalpha h3
        subst hc4; subst hrest
        refine ⟨?_, ?_⟩
        · simp only [encB64]
          rw [show (s1 * 4 + s2 / 16) / 4 = s1 by omega,
            show (s1 * 4 + s2 / 16) % 4 * 16 + (s2 % 16 * 16 + s3 / 4) / 16 = s2 by omega,
            show (s2 % 16 * 16 + s3 / 4) % 16 * 4 = s3 by omega, ha1, ha2, ha3]
        · intro x hx; simp at hx; rcases hx with rfl | rfl <;> omega
      · obtain ⟨ih1, ih2⟩ := decB64_canon rest dd hdec
        obtain ⟨ha3, hs3⟩ := b64alpha_unalpha h3
        obtain ⟨ha4, hs4⟩ := b64alpha_unalpha h4
        refine ⟨?_, ?_⟩
        · simp only [encB64, ih1]
          rw [show (s1 * 4 + s2 / 16) / 4 = s1 by omega,
            show (s1 * 4 + s2 / 16) % 4 * 16 + (s2 % 16 * 16 + s3 / 4) / 16 = s2 by omega,
            show (s2 % 16 * 16 + s3 / 4) % 16 * 4 + (s3 % 4 * 64 + s4) / 64 = s3 by omega,
            show (s3 % 4 * 64 + s4) % 64 = s4 by omega, ha1, ha2, ha3, ha4]
        · intro x hx
          simp only [List.mem_cons] at hx
          rcases hx with rfl | rfl | rfl | hx
          · omega
          · omega
          · omega
          · exact ih2 x hx

theorem getElem?_cons3 {α : Type} (a b c : α) (l : List α) (p : Nat) :
    (a :: b :: c :: l)[p + 3]? = l[p]? := by
  rw [show p + 3 = p + 2 + 1 from rfl, List.getElem?_cons_succ,
    show p + 2 = p + 1 + 1 from rfl, List.getElem?_cons_succ, List.getElem?_cons_succ]

/-- The byte group decoded from one quantum: at least one byte; when the
quantum is padded the input ends there and the group is the whole (short)
output, otherwise the remaining quanta decode independently after it. -/
theorem decB64_chunk_tail {c1 c2 c3 c4 : Nat} {rest d : List Nat}
    (h : decB64 (c1 :: c2 :: c3 :: c4 :: rest) = some d) :
    1 ≤ d.length ∧
      ((rest = [] ∧ d.length ≤ 3) ∨
       (∃ dd, decB64 rest = some dd ∧ d.length = 3 + dd.length ∧
         ∀ p, d[p + 3]? = dd[p]?)) := by
  obtain ⟨s1, s2, _, _, hcase⟩ := decB64_cons_elim h
  rcases hcase with ⟨_, _, hrest, _, rfl⟩ | ⟨s3, _, _, _, hrest, _, rfl⟩ |
    ⟨s3, s4, dd, _, _, _, _, hdec, rfl⟩
  · exact ⟨by simp, Or.inl ⟨hrest, by simp⟩⟩
  · exact ⟨by simp, Or.inl ⟨hrest, by simp⟩⟩
  · exact ⟨by simp, Or.inr ⟨dd, hdec, by simp only [List.length_cons]; omega,
      fun p => getElem?_cons3 _ _ _ _ p⟩⟩

/-- Locality of base64 decoding: if two inputs of the same length agree
outside quantum `g` and both decode, the outputs agree outside byte group
`g`, and either the outputs have the same length or group `g` is the last
group of both (so both lengths lie in `(3g, 3g+3]`). -/
theorem decB64_local : ∀ (g : Nat) (s t d e : List Nat),
    s.length = t.length →
    (∀ i : Nat, i / 4 ≠ g → s[i]? = t[i]?) →
    decB64 s = some d → decB64 t = some e →
    (∀ p : Nat, p / 3 ≠ g → d[p]? = e[p]?) ∧
    (d.length = e.length ∨
      (3 * g < d.length ∧ d.length ≤ 3 * g + 3 ∧ 3 * g < e.length ∧ e.length ≤ 3 * g + 3))
  | g, [], t, d, e => by
      intro hlen _ h ht
      obtain rfl : t = [] := List.length_eq_zero.mp (by simpa using hlen.symm)
      obtain rfl : d = [] := by simpa [decB64] using h.symm
      obtain rfl : e = [] := by simpa [decB64] using ht.symm
      exact ⟨fun p _ => rfl, Or.inl rfl⟩
  | _, [_], _, _, _ => by intro _ _ h _; simp [decB64] at h
  | _, [_, _], _, _, _ => by intro _ _ h _; simp [decB64] at h
  | _, [_, _, _], _, _, _ => by intro _ _ h _; simp [decB64] at h
  | g, c1 :: c2 :: c3 :: c4 :: (rest : List Nat), t, d, e => by
      intro hlen hpt h ht
      obtain ⟨t1, t2, t3, t4, rest', rfl⟩ :
          ∃ t1 t2 t3 t4 rest', t = t1 :: t2 :: t3 :: t4 :: rest' := by
        rcases t with _ | ⟨t1, _ | ⟨t2, _ | ⟨t3, _ | ⟨t4, r'⟩⟩⟩⟩ <;>
          simp only [List.length_cons, List.length_nil] at hlen <;> first
          | omega
          | exact ⟨t1, t2, t3, t4, r', rfl⟩
      have hlen' : rest.length = rest'.length := by
        simp only [List.length_cons] at hlen; omega
      match g with
      | 0 =>
          have htail : rest = rest' := by
            apply List.ext_getElem?
            intro j
            have := hpt (j + 4) (by omega)
            simpa using this
          subst htail
          obtain ⟨hd1, hds⟩ := decB64_chunk_tail h
          obtain ⟨he1, hes⟩ := decB64_chunk_tail ht
          have hcore : (d.length = e.length ∧ ∀ p : Nat, 3 ≤ p → d[p]? = e[p]?) ∨
              (d.length ≤ 3 ∧ e.length ≤ 3) := by
            rcases hds with ⟨hre, hd3⟩ | ⟨dd, hdd, hdl, hdp⟩
            · rcases hes with ⟨hre', he3⟩ | ⟨ee, hee, hel, hep⟩
              · exact Or.inr ⟨hd3, he3⟩
              · subst hre
                obtain rfl : ee = [] := by simpa [decB64] using hee.symm
                simp only [List.length_nil] at hel
                exact Or.inr ⟨hd3, by omega⟩
            · rcases hes with ⟨hre', he3⟩ | ⟨ee, hee, hel, hep⟩
              · subst hre'
                obtain rfl : dd = [] := by simpa [decB64] using hdd.symm
                simp only [List.length_nil] at hdl
                exact Or.inr ⟨by omega, he3⟩
              · obtain rfl : dd = ee := Option.some.inj (hdd.symm.trans hee)
                refine Or.inl ⟨by omega, fun p hp => ?_⟩
                obtain ⟨p', rfl⟩ : ∃ p', p = p' + 3 := ⟨p - 3, by omega⟩
                rw [hdp p', hep p']
          rcases hcore with ⟨hl, hp3⟩ | ⟨hd3, he3⟩
          · exact ⟨fun p hp => hp3 p (by omega), Or.inl hl⟩
          · refine ⟨fun p hp => ?_, Or.inr (by omega)⟩
            have hd0 : d[p]? = none := List.getElem?_eq_none (by omega)
            have he0 : e[p]? = none := List.getElem?_eq_none (by omega)
            rw [hd0, he0]
      | g' + 1 =>
          obtain rfl : t1 = c1 := by
            have := hpt 0 (by omega); simpa using this.symm
          obtain rfl : t2 = c2 := by
            have := hpt 1 (by omega); simpa using this.symm
          obtain rfl : t3 = c3 := by
            have := hpt 2 (by omega); simpa using this.symm
          obtain rfl : t4 = c4 := by
            have := hpt 3 (by omega); simpa using this.symm
          obtain ⟨s1, s2, h1, h2, hcase⟩ := decB64_cons_elim h
          obtain ⟨s1', s2', h1', h2', hcase'⟩ := decB64_cons_elim ht
          obtain rfl : s1' = s1 := Option.some.inj ((h1'.symm.trans h1))
          obtain rfl : s2' = s2 := Option.some.inj ((h2'.symm.trans h2))
          rcases hcase with ⟨hc3, hc4, hrest, hm, rfl⟩ | ⟨s3, hc3, h3, hc4, hrest, hm, rfl⟩ |
            ⟨s3, s4, dd, hc3, hc4, h3, h4, hdec, rfl⟩
          · rcases hcase' with ⟨_, _, hrest', _, rfl⟩ | ⟨s3', hc3', _, _, _, _, _⟩ |
              ⟨s3', s4', ee, hc3', _, _, _, _, _⟩
            · subst hrest; subst hrest'
              exact ⟨fun p _ => rfl, Or.inl rfl⟩
            · exact absurd hc3 hc3'
            · exact absurd hc3 hc3'
          · rcases hcase' with ⟨hc3', _, _, _, _⟩ | ⟨s3', _, h3', hc4', hrest', hm', rfl⟩ |
              ⟨s3', s4', ee, _, hc4', _, _, _, _⟩
            · exact absurd hc3' hc3
            · obtain rfl : s3' = s3 := Option.some.inj ((h3'.symm.trans h3))
              subst hrest; subst hrest'
              exact ⟨fun p _ => rfl, Or.inl rfl⟩
            · exact absurd hc4 hc4'
          · rcases hcase' with ⟨hc3', _, _, _, _⟩ | ⟨s3', _, _, hc4', _, _, _⟩ |
              ⟨s3', s4', ee, _, _, h3', h4', hdec', rfl⟩
            · exact absurd hc3' hc3
            · exact absurd hc4' hc4
            · obtain rfl : s3' = s3 := Option.some.inj ((h3'.symm.trans h3))
              obtain rfl : s4' = s4 := Option.some.inj ((h4'.symm.trans h4))
              have hptr : ∀ i : Nat, i / 4 ≠ g' → rest[i]? = rest'[i]? := by
                intro i hi
                have := hpt (i + 4) (by omega)
                simpa using this
              obtain ⟨ihp, ihl⟩ := decB64_local g' rest rest' dd ee hlen' hptr hdec hdec'
              refine ⟨fun p hp => ?_, ?_⟩
              · by_cases hp3 : p < 3
                · interval_cases p <;> simp
                · obtain ⟨p', rfl⟩ : ∃ p', p = p' + 3 := ⟨p - 3, by omega⟩
                  rw [getElem?_cons3, getElem?_cons3]
                  exact ihp p' (by omega)
              · rcases ihl with hl | hl
                · exact Or.inl (by simp [hl])
                · exact Or.inr (by simp only [List.length_cons]; omega)

/-! ## Lemmas: frames and the ideal AEAD -/

theorem unaryLen_length (n : Nat) : (unaryLen n).length = n + 1 := by
  simp [unaryLen]

theorem frame_length (l : List Nat) : (frame l).length = 2 * l.length + 1 := by
  simp [frame, unaryLen_length]; omega

theorem unaryLen_getElem (n i : Nat) :
    (unaryLen n)[i]? = if i < n then some 1 else if i = n then some 0 else none := by
  unfold unaryLen
  by_cases h1 : i < n
  · rw [List.getElem?_append_left (by simpa using h1), List.getElem?_replicate,
      if_pos h1, if_pos h1]
  · rw [List.getElem?_append_right (by simpa using Nat.le_of_not_lt h1)]
    simp only [List.length_replicate]
    by_cases h2 : i = n
    · subst h2; simp [h1]
    · have hd : (([0] : List Nat)).length ≤ i - n := by simp; omega
      rw [List.getElem?_eq_none hd]
      simp [h1, h2]

theorem frame_append_inj {a x b y : List Nat} (h : frame a ++ x = frame b ++ y) :
    a = b ∧ x = y := by
  have hlen : a.length = b.length := by
    rcases Nat.lt_trichotomy a.length b.length with hlt | heq | hgt
    · exfalso
      have h1 : (frame a ++ x)[a.length]? = some 0 := by
        rw [List.getElem?_append_left (by rw [frame_length]; omega)]
        unfold frame
        rw [List.getElem?_append_left (by rw [unaryLen_length]; omega), unaryLen_getElem]
        simp
      have h2 : (frame b ++ y)[a.length]? = some 1 := by
        rw [List.getElem?_append_left (by rw [frame_length]; omega)]
        unfold frame
        rw [List.getElem?_append_left (by rw [unaryLen_length]; omega), unaryLen_getElem]
        simp [hlt]
      rw [h, h2] at h1
      simp at h1
    · exact heq
    · exfalso
      have h1 : (frame a ++ x)[b.length]? = some 1 := by
        rw [List.getElem?_append_left (by rw [frame_length]; omega)]
        unfold frame
        rw [List.getElem?_append_left (by rw [unaryLen_length]; omega), unaryLen_getElem]
        simp [hgt]
      have h2 : (frame b ++ y)[b.length]? = some 0 := by
        rw [List.getElem?_append_left (by rw [frame_length]; omega)]
        unfold frame
        rw [List.getElem?_append_left (by rw [unaryLen_length]; omega), unaryLen_getElem]
        simp
      rw [h, h2] at h1
      simp at h1
  obtain ⟨hf, hxy⟩ := List.append_inj h (by rw [frame_length, frame_length, hlen])
  refine ⟨?_, hxy⟩
  unfold frame at hf
  exact (List.append_inj hf (by rw [unaryLen_length, unaryLen_length, hlen])).2

theorem gcmSeal_length (key nonce pt ad : List Nat) :
    (gcmSeal key nonce pt ad).length =
      2 * (key.length + nonce.length + ad.length) + 4 * pt.length + 5 := by
  simp [gcmSeal, frame_length, List.length_append]; omega

/-- The ideal seal is injective in all four arguments jointly. -/
theorem gcmSeal_inj {k n pt ad k' n' pt' ad' : List Nat}
    (h : gcmSeal k n pt ad = gcmSeal k' n' pt' ad') :
    k = k' ∧ n = n' ∧ pt = pt' ∧ ad = ad' := by
  unfold gcmSeal at h
  obtain ⟨hk, h⟩ := frame_append_inj h
  obtain ⟨hn, h⟩ := frame_append_inj h
  obtain ⟨ha, h⟩ := frame_append_inj h
  obtain ⟨hp, _⟩ := frame_append_inj h
  exact ⟨hk, hn, hp, ha⟩

/-- AEAD round trip: opening a seal with the same key, nonce and
associated data returns the plaintext. -/
theorem gcmOpenPt_gcmSeal (key nonce pt ad : List Nat) :
    gcmOpenPt key nonce (gcmSeal key nonce pt ad) ad = pt := by
  unfold gcmOpenPt
  have hm : ((gcmSeal key nonce pt ad).length -
      (2 * (key.length + nonce.length + ad.length) + 5)) / 4 = pt.length := by
    rw [gcmSeal_length]; omega
  rw [hm]
  have hX : gcmSeal key nonce pt ad =
      (frame key ++ frame nonce ++ frame ad ++ unaryLen pt.length ++ pt ++
        unaryLen pt.length) ++ pt := by
    simp [gcmSeal, frame, List.append_assoc]
  rw [hX, List.length_append, Nat.add_sub_cancel, List.drop_left]

theorem gcmOpen_gcmSeal (key nonce pt ad : List Nat) :
    gcmOpen key nonce (gcmSeal key nonce pt ad) ad = some pt := by
  unfold gcmOpen
  rw [gcmOpenPt_gcmSeal, if_pos rfl]

/-- AEAD completeness: a successful open means the sealed bytes are
exactly a seal of the returned plaintext under that key, nonce and
associated data. -/
theorem gcmOpen_eq_some {key nonce sealed ad pt : List Nat}
    (h : gcmOpen key nonce sealed ad = some pt) : sealed = gcmSeal key nonce pt ad := by
  unfold gcmOpen at h
  split at h
  next heq =>
    obtain rfl := Option.some.inj h
    exact heq
  next => simp at h

/-! ## Lemmas: byte-validity -/

theorem validBytes_append {l1 l2 : List Nat} :
    ValidBytes (l1 ++ l2) ↔ ValidBytes l1 ∧ ValidBytes l2 := by
  constructor
  · exact fun h => ⟨fun b hb => h b (by simp [hb]), fun b hb => h b (by simp [hb])⟩
  · rintro ⟨h1, h2⟩ b hb
    rcases List.mem_append.mp hb with hm | hm
    · exact h1 b hm
    · exact h2 b hm

theorem validBytes_unaryLen (n : Nat) : ValidBytes (unaryLen n) := by
  intro b hb
  simp [unaryLen, List.mem_append, List.mem_replicate] at hb
  rcases hb with ⟨_, rfl⟩ | rfl <;> omega

theorem validBytes_frame {l : List Nat} (h : ValidBytes l) : ValidBytes (frame l) :=
  validBytes_append.mpr ⟨validBytes_unaryLen _, h⟩

theorem validBytes_gcmSeal {k n pt ad : List Nat} (hk : ValidBytes k) (hn : ValidBytes n)
    (hpt : ValidBytes pt) (had : ValidBytes ad) : ValidBytes (gcmSeal k n pt ad) := by
  unfold gcmSeal
  exact validBytes_append.mpr ⟨validBytes_frame hk, validBytes_append.mpr
    ⟨validBytes_frame hn, validBytes_append.mpr ⟨validBytes_frame had,
      validBytes_append.mpr ⟨validBytes_frame hpt, validBytes_frame hpt⟩⟩⟩⟩

/-! ## Lemmas: gob round trip -/

theorem splitUnary_unaryLen (n : Nat) (rest : List Nat) :
    splitUnary (unaryLen n ++ rest) = some (n, rest) := by
  induction n with
  | zero => simp [unaryLen, splitUnary]
  | succ n ih =>
      have hc : unaryLen (n + 1) ++ rest = 1 :: (unaryLen n ++ rest) := by
        simp [unaryLen, List.replicate_succ]
      rw [hc]
      simp [splitUnary, ih]

theorem parseFrame_frame (a rest : List Nat) :
    parseFrame (frame a ++ rest) = some (a, rest) := by
  unfold parseFrame frame
  rw [List.append_assoc, splitUnary_unaryLen]
  simp [List.take_left, List.drop_left, Option.bind]

theorem gobDec_gobEnc (a : authDataT) : gobDec (gobEnc a) = some a := by
  unfold gobDec gobEnc
  rw [parseFrame_frame]
  have hp : parseFrame (frame a.EncodedPassword) = some (a.EncodedPassword, []) := by
    simpa using parseFrame_frame a.EncodedPassword []
  simp [hp]

theorem validBytes_gobEnc {a : authDataT} (hu : ValidBytes a.Username)
    (hp : ValidBytes a.EncodedPassword) : ValidBytes (gobEnc a) :=
  validBytes_append.mpr ⟨validBytes_frame hu, validBytes_frame hp⟩

/-! ## Lemmas: positions inside a sealed envelope -/

theorem getElem?_append_offset {α : Type} (x y : List α) (i : Nat) :
    (x ++ y)[x.length + i]? = y[i]? := by
  rw [List.getElem?_append_right (by omega)]
  congr 1
  omega

theorem ne_getElem? {α : Type} {l l' : List α} (h : l ≠ l') : ∃ i : Nat, l[i]? ≠ l'[i]? := by
  by_contra hc
  push_neg at hc
  exact h (List.ext_getElem? hc)

/-- The nonce bytes embedded (framed) inside a seal, read off by index. -/
theorem gcmSeal_getElem_nonce (key n pt ad : List Nat) {i : Nat} (hi : i < n.length) :
    (gcmSeal key n pt ad)[(frame key).length + ((unaryLen n.length).length + i)]? = n[i]? := by
  unfold gcmSeal
  rw [getElem?_append_offset,
    show frame n ++ (frame ad ++ (frame pt ++ frame pt)) =
      unaryLen n.length ++ (n ++ (frame ad ++ (frame pt ++ frame pt))) by
        simp [frame, List.append_assoc],
    getElem?_append_offset]
  exact List.getElem?_append_left hi

/-- The first plaintext copy inside a seal, read off by index. -/
theorem gcmSeal_getElem_pt1 (key n pt ad : List Nat) {i : Nat} (hi : i < pt.length) :
    (gcmSeal key n pt ad)[(frame key).length + ((frame n).length + ((frame ad).length +
      ((unaryLen pt.length).length + i)))]? = pt[i]? := by
  unfold gcmSeal
  rw [getElem?_append_offset, getElem?_append_offset, getElem?_append_offset,
    show frame pt ++ frame pt = unaryLen pt.length ++ (pt ++ frame pt) by
      simp [frame, List.append_assoc],
    getElem?_append_offset]
  exact List.getElem?_append_left hi

/-- The second plaintext copy inside a seal, read off by index. -/
theorem gcmSeal_getElem_pt2 (key n pt ad : List Nat) (i : Nat) :
    (gcmSeal key n pt ad)[(frame key).length + ((frame n).length + ((frame ad).length +
      ((frame pt).length + ((unaryLen pt.length).length + i))))]? = pt[i]? := by
  unfold gcmSeal
  rw [getElem?_append_offset, getElem?_append_offset, getElem?_append_offset,
    getElem?_append_offset,
    show frame pt = unaryLen pt.length ++ pt from rfl,
    getElem?_append_offset]

/-- Two distinct accepted envelopes (same key, same associated data, same
total length) differ at two positions at least three apart.  This is the
redundancy that makes a localized corruption detectable. -/
theorem accepted_spread {key ad n1 n2 p1 p2 : List Nat}
    (hn1 : n1.length = 12) (hn2 : n2.length = 12)
    (hlen : (n1 ++ gcmSeal key n1 p1 ad).length = (n2 ++ gcmSeal key n2 p2 ad).length)
    (hne : n1 ++ gcmSeal key n1 p1 ad ≠ n2 ++ gcmSeal key n2 p2 ad) :
    ∃ p q : Nat, p + 3 ≤ q ∧
      (n1 ++ gcmSeal key n1 p1 ad)[p]? ≠ (n2 ++ gcmSeal key n2 p2 ad)[p]? ∧
      (n1 ++ gcmSeal key n1 p1 ad)[q]? ≠ (n2 ++ gcmSeal key n2 p2 ad)[q]? := by
  have hpl : p1.length = p2.length := by
    simp only [List.length_append, gcmSeal_length, hn1, hn2] at hlen
    omega
  have hcase : n1 ≠ n2 ∨ p1 ≠ p2 := by
    by_contra hc
    push_neg at hc
    exact hne (by rw [hc.1, hc.2])
  rcases hcase with hnne | hpne
  · obtain ⟨i, hi⟩ := ne_getElem? hnne
    have hilt : i < 12 := by
      by_contra hge
      rw [List.getElem?_eq_none (by omega), List.getElem?_eq_none (by omega)] at hi
      exact hi rfl
    refine ⟨i, n1.length + ((frame key).length + ((unaryLen n1.length).length + i)),
      by simp only [frame_length, unaryLen_length, hn1]; omega, ?_, ?_⟩
    · rw [List.getElem?_append_left (by omega), List.getElem?_append_left (by omega)]
      exact hi
    · have hq2 : n1.length + ((frame key).length + ((unaryLen n1.length).length + i)) =
          n2.length + ((frame key).length + ((unaryLen n2.length).length + i)) := by
        rw [hn1, hn2]
      rw [getElem?_append_offset, gcmSeal_getElem_nonce key n1 p1 ad (by omega), hq2,
        getElem?_append_offset, gcmSeal_getElem_nonce key n2 p2 ad (by omega)]
      exact hi
  · obtain ⟨i, hi⟩ := ne_getElem? hpne
    have hilt : i < p1.length := by
      by_contra hge
      rw [List.getElem?_eq_none (by omega), List.getElem?_eq_none (by omega)] at hi
      exact hi rfl
    refine ⟨n1.length + ((frame key).length + ((frame n1).length + ((frame ad).length +
        ((unaryLen p1.length).length + i)))),
      n1.length + ((frame key).length + ((frame n1).length + ((frame ad).length +
        ((frame p1).length + ((unaryLen p1.length).length + i))))),
      by simp only [frame_length, unaryLen_length]; omega, ?_, ?_⟩
    · have hq2 : n1.length + ((frame key).length + ((frame n1).length + ((frame ad).length +
          ((unaryLen p1.length).length + i)))) =
          n2.length + ((frame key).length + ((frame n2).length + ((frame ad).length +
          ((unaryLen p2.length).length + i)))) := by
        simp only [frame_length, unaryLen_length, hn1, hn2, hpl]
      rw [getElem?_append_offset, gcmSeal_getElem_pt1 key n1 p1 ad hilt, hq2,
        getElem?_append_offset, gcmSeal_getElem_pt1 key n2 p2 ad (by omega)]
      exact hi
    · have hq2 : n1.length + ((frame key).length + ((frame n1).length + ((frame ad).length +
          ((frame p1).length + ((unaryLen p1.length).length + i))))) =
          n2.length + ((frame key).length + ((frame n2).length + ((frame ad).length +
          ((frame p2).length + ((unaryLen p2.length).length + i))))) := by
        simp only [frame_length, unaryLen_length, hn1, hn2, hpl]
      rw [getElem?_append_offset, gcmSeal_getElem_pt2 key n1 p1 ad i, hq2,
        getElem?_append_offset, gcmSeal_getElem_pt2 key n2 p2 ad i]
      exact hi

/-! ## Lemmas: the credential store -/

theorem getKey_eq_ok {mode : Nat} {content key : List Nat}
    (h : getKey mode content = .ok key) :
    mode % 512 = 256 ∧ decB64 content = some key := by
  unfold getKey at h
  split at h
  · simp at h
  next hmode =>
    rcases hd : decB64 content with _ | k <;> rw [hd] at h
    · simp at h
    · obtain rfl : k = key := by simpa using h
      exact ⟨by omega, rfl⟩

theorem validBytes_additionalContext : ValidBytes additionalContext := by decide

/-- A successful `writeCreds` pins down the envelope: the base64 encoding
of the nonce followed by the seal of the gob-encoded record. -/
theorem writeCreds_ok {mode : Nat} {keyContent : List Nat} {rec : authDataT}
    {nonce env : List Nat}
    (hw : (writeCreds mode keyContent rec nonce).result = .ok env) :
    ∃ key, getKey mode keyContent = .ok key ∧ aesKeyOk key = true ∧
      env = encB64 (nonce ++ gcmSeal key nonce (gobEnc rec) additionalContext) := by
  unfold writeCreds at hw
  rcases hk : getKey mode keyContent with e | key <;> rw [hk] at hw <;>
    simp only [] at hw
  · simp at hw
  · by_cases hak : aesKeyOk key
    · rw [if_pos hak] at hw
      exact ⟨key, rfl, hak, by simpa using hw.symm⟩
    · rw [if_neg hak] at hw
      simp at hw

/-- The decoded envelope, its nonce split, and the open, for a well-formed
envelope under the right key: the full successful read path. -/
theorem readCreds_ok {mode : Nat} {keyContent : List Nat} {key : List Nat} {rec : authDataT}
    {nonce : List Nat}
    (hk : getKey mode keyContent = .ok key) (hak : aesKeyOk key = true)
    (hu : ValidBytes rec.Username) (hp : ValidBytes rec.EncodedPassword)
    (hn : nonce.length = 12) (hnv : ValidBytes nonce) :
    (readCreds mode keyContent
      (encB64 (nonce ++ gcmSeal key nonce (gobEnc rec) additionalContext))).result =
      .ok rec := by
  have hkv : ValidBytes key := (decB64_canon keyContent key (getKey_eq_ok hk).2).2
  have hdv : ValidBytes (nonce ++ gcmSeal key nonce (gobEnc rec) additionalContext) :=
    validBytes_append.mpr ⟨hnv, validBytes_gcmSeal hkv hnv (validBytes_gobEnc hu hp)
      validBytes_additionalContext⟩
  have hd := decB64_encB64 _ hdv
  unfold readCreds
  rw [hk]
  simp only []
  rw [if_pos hak, hd]
  have hsplit : nonceSplit (nonce ++ gcmSeal key nonce (gobEnc rec) additionalContext) =
      some (nonce, gcmSeal key nonce (gobEnc rec) additionalContext) := by
    unfold nonceSplit gcmNonceSize
    rw [if_neg (by simp [List.length_append, hn])]
    rw [show (12 : Nat) = nonce.length from hn.symm, List.take_left, List.drop_left]
  simp only [hsplit, gcmOpen_gcmSeal, gobDec_gobEnc]

/-- Opening under a different key fails (ideal AEAD). -/
theorem gcmOpen_wrong_key {key key' n pt ad : List Nat} (hne : key' ≠ key) :
    gcmOpen key' n (gcmSeal key n pt ad) ad = none := by
  rcases ho : gcmOpen key' n (gcmSeal key n pt ad) ad with _ | pt'
  · rfl
  · exact absurd (gcmSeal_inj (gcmOpen_eq_some ho)).1.symm hne

/-- Opening under a different associated-data tag fails (ideal AEAD). -/
theorem gcmOpen_wrong_ad {key n pt ad ad' : List Nat} (hne : ad' ≠ ad) :
    gcmOpen key n (gcmSeal key n pt ad) ad' = none := by
  rcases ho : gcmOpen key n (gcmSeal key n pt ad) ad' with _ | pt'
  · rfl
  · exact absurd (gcmSeal_inj (gcmOpen_eq_some ho)).2.2.2.symm hne

/-- `readCreds` on a file that is not valid base64. -/
theorem readCreds_badB64 {mode : Nat} {keyContent key file : List Nat}
    (hk : getKey mode keyContent = .ok key) (hak : aesKeyOk key = true)
    (hd : decB64 file = none) :
    (readCreds mode keyContent file).result = .error .b64FormatErr := by
  unfold readCreds
  rw [hk]
  simp only []
  rw [if_pos hak, hd]

/-- `readCreds` on a file whose decoded content is shorter than the nonce:
the unguarded split (a slice-bounds panic in the source). -/
theorem readCreds_short {mode : Nat} {keyContent key file d : List Nat}
    (hk : getKey mode keyContent = .ok key) (hak : aesKeyOk key = true)
    (hd : decB64 file = some d) (hlen : d.length < 12) :
    (readCreds mode keyContent file).result = .error .sliceBoundsErr := by
  unfold readCreds
  rw [hk]
  simp only []
  rw [if_pos hak, hd]
  have hsplit : nonceSplit d = none := by
    unfold nonceSplit gcmNonceSize
    rw [if_pos hlen]
  simp only [hsplit]

/-- `readCreds` on a well-formed base64 file of decoded length at least
the nonce size: the result is decided by the AEAD open and gob decode. -/
theorem readCreds_open {mode : Nat} {keyContent key file d : List Nat}
    (hk : getKey mode keyContent = .ok key) (hak : aesKeyOk key = true)
    (hd : decB64 file = some d) (hlen : 12 ≤ d.length) :
    (readCreds mode keyContent file).result =
      match gcmOpen key (d.take 12) (d.drop 12) additionalContext with
      | none => .error .integrityErr
      | some pt =>
          match gobDec pt with
          | none => .error .gobErr
          | some a => .ok a := by
  unfold readCreds
  rw [hk]
  simp only []
  rw [if_pos hak, hd]
  have hsplit : nonceSplit d = some (d.take 12, d.drop 12) := by
    unfold nonceSplit gcmNonceSize
    rw [if_neg (by omega)]
  simp only [hsplit]
  rcases ho : gcmOpen key (d.take 12) (d.drop 12) additionalContext with _ | pt <;>
    simp only [ho]
  rcases hg : gobDec pt with _ | a <;> simp only [hg]

/-- The key buffer after `writeCreds` ran past `getKey`: every byte is the
shred sentinel, whether or not the cipher construction succeeded. -/
theorem writeCreds_keyMem {mode : Nat} {keyContent key : List Nat} {rec : authDataT}
    {nonce : List Nat} (hk : getKey mode keyContent = .ok key) :
    (writeCreds mode keyContent rec nonce).keyMem =
      some (List.replicate key.length 105) := by
  unfold writeCreds
  rw [hk]
  simp only []
  by_cases hak : aesKeyOk key <;> simp [hak, shred, List.map_const']

/-- The key buffer after `readCreds` ran past `getKey`: every byte is the
shred sentinel, whether or not the cipher construction succeeded. -/
theorem readCreds_keyMem {mode : Nat} {keyContent key file : List Nat}
    (hk : getKey mode keyContent = .ok key) :
    (readCreds mode keyContent file).keyMem =
      some (List.replicate key.length 105) := by
  unfold readCreds
  rw [hk]
  simp only []
  (repeat' split) <;> simp [shred, List.map_const']

/-- Flipping any single bit of a written envelope makes `readCreds` fail
closed: either the base64 text is no longer valid (format failure) or the
decoded bytes no longer open (AEAD integrity failure).  Never a record. -/
theorem readCreds_flip {mode : Nat} {keyContent key : List Nat} {rec : authDataT}
    {nonce : List Nat} (hk : getKey mode keyContent = .ok key) (hak : aesKeyOk key = true)
    (hu : ValidBytes rec.Username) (hp : ValidBytes rec.EncodedPassword)
    (hn : nonce.length = 12) (hnv : ValidBytes nonce) (i j : Nat)
    (hi : i < (encB64 (nonce ++ gcmSeal key nonce (gobEnc rec) additionalContext)).length)
    (hj : j < 8) :
    (readCreds mode keyContent
      (flipBit (encB64 (nonce ++ gcmSeal key nonce (gobEnc rec) additionalContext)) i j)).result
        = .error .integrityErr ∨
    (readCreds mode keyContent
      (flipBit (encB64 (nonce ++ gcmSeal key nonce (gobEnc rec) additionalContext)) i j)).result
        = .error .b64FormatErr := by
  set d := nonce ++ gcmSeal key nonce (gobEnc rec) additionalContext with hd_def
  set env := encB64 d with henv_def
  have hkv : ValidBytes key := (decB64_canon keyContent key (getKey_eq_ok hk).2).2
  have hdv : ValidBytes d :=
    validBytes_append.mpr ⟨hnv, validBytes_gcmSeal hkv hnv (validBytes_gobEnc hu hp)
      validBytes_additionalContext⟩
  have hdec : decB64 env = some d := decB64_encB64 d hdv
  have henvne : flipBit env i j ≠ env := by
    intro he
    have hb1 : env[i]? = some env[i] := List.getElem?_eq_getElem hi
    have hb2 : (flipBit env i j)[i]? = some (env[i] ^^^ 2 ^ j) := by
      rw [flipBit, List.getElem?_modify, hb1]
      simp
    rw [he, hb1] at hb2
    have hbb : env[i] = env[i] ^^^ 2 ^ j := Option.some.inj hb2
    have h2 : env[i] ^^^ env[i] = env[i] ^^^ (env[i] ^^^ 2 ^ j) :=
      congrArg (fun x => env[i] ^^^ x) hbb
    rw [Nat.xor_self, ← Nat.xor_assoc, Nat.xor_self, Nat.zero_xor] at h2
    have := Nat.two_pow_pos j
    omega
  rcases hdec' : decB64 (flipBit env i j) with _ | d'
  · exact Or.inr (readCreds_badB64 hk hak hdec')
  · left
    obtain ⟨henc', hdv'⟩ := decB64_canon _ _ hdec'
    have hdne : d ≠ d' := by
      intro hdd
      apply henvne
      have he2 : encB64 d' = flipBit env i j := henc'
      rw [← hdd] at he2
      exact he2.symm
    have hlocAll := decB64_local (i / 4) env (flipBit env i j) d d'
      (by rw [flipBit, List.length_modify])
      (fun p hp => by
        have hip : i ≠ p := fun he => hp (by rw [← he])
        rw [flipBit, List.getElem?_modify]
        rcases env[p]? with _ | b
        · rfl
        · simp [hip])
      hdec hdec'
    obtain ⟨hloc, hbr⟩ := hlocAll
    have hdlen : d.length =
        12 + (2 * (key.length + 12 + additionalContext.length) + 4 * (gobEnc rec).length + 5) := by
      rw [hd_def, List.length_append, gcmSeal_length, hn]
    have hd'len12 : 12 ≤ d'.length := by
      rcases hbr with hbr | hbr
      · omega
      · omega
    rw [readCreds_open hk hak hdec' hd'len12]
    rcases ho : gcmOpen key (d'.take 12) (d'.drop 12) additionalContext with _ | pt'
    · rfl
    · exfalso
      have hcomp := gcmOpen_eq_some ho
      have hn' : (d'.take 12).length = 12 := by
        rw [List.length_take]
        omega
      have hdecomp : d' = d'.take 12 ++ gcmSeal key (d'.take 12) pt' additionalContext := by
        conv_lhs => rw [← List.take_append_drop 12 d']
        rw [hcomp]
      have hd'len : d'.length =
          12 + (2 * (key.length + 12 + additionalContext.length) + 4 * pt'.length + 5) := by
        conv_lhs => rw [hdecomp]
        rw [List.length_append, gcmSeal_length, hn']
      by_cases heq : d.length = d'.length
      · have hsp := @accepted_spread key additionalContext nonce (d'.take 12) (gobEnc rec) pt'
          hn hn' (by rw [← hd_def, ← hdecomp]; exact heq) (by rw [← hd_def, ← hdecomp]; exact hdne)
        obtain ⟨p, q, hpq, hp, hq⟩ := hsp
        rw [← hd_def, ← hdecomp] at hp hq
        have hp3 : p / 3 = i / 4 := by
          by_contra hc
          exact hp (hloc p hc)
        have hq3 : q / 3 = i / 4 := by
          by_contra hc
          exact hq (hloc q hc)
        omega
      · rcases hbr with hbr | hbr
        · exact heq hbr
        · omega

/-! ## Lemmas: the login loop -/

theorem backoffs_zero (retries : Nat) : backoffs retries 0 = [] := rfl

theorem backoffs_succ (retries k : Nat) :
    backoffs retries (k + 1) = (6 - (retries - 1)) * 5 :: backoffs (retries - 1) k := by
  unfold backoffs
  rw [List.range_succ_eq_map, List.map_cons, List.map_map]
  refine congrArg₂ List.cons (by simp) ?_
  apply List.map_congr_left
  intro a _
  simp only [Function.comp_apply]
  congr 1
  omega

theorem backoffs_succ' (R k : Nat) :
    backoffs (R + 1) (k + 1) = (6 - R) * 5 :: backoffs R k := by
  simpa using backoffs_succ (R + 1) k

/-- Full characterization of the login loop, for a positive retry budget
`retries + 1`: it makes `k + 1` POSTs, the first `k` of which returned
retryable (≥ 500) statuses; it ends with a transport abort (no further
POST, no further sleep), with the first sub-500 status, or with the retry
budget exhausted (in which case a sleep happened even after the last
attempt). -/
theorem authLoop_spec (post : Nat → Option Nat) :
    ∀ retries idx sl,
    (∀ p s, authLoop post idx (retries + 1) sl = .transportAbort p s →
      ∃ k, k < retries + 1 ∧ p = idx + k + 1 ∧ s = sl ++ backoffs (retries + 1) k ∧
        (∀ j, j < k → ∃ st, post (idx + j) = some st ∧ 500 ≤ st) ∧ post (idx + k) = none) ∧
    (∀ st p s, authLoop post idx (retries + 1) sl = .gotResp st p s →
      (∃ k, k < retries + 1 ∧ p = idx + k + 1 ∧ s = sl ++ backoffs (retries + 1) k ∧
        (∀ j, j < k → ∃ st', post (idx + j) = some st' ∧ 500 ≤ st') ∧
        post (idx + k) = some st ∧ st < 500) ∨
      (p = idx + (retries + 1) ∧ s = sl ++ backoffs (retries + 1) (retries + 1) ∧
        (∀ j, j < retries + 1 → ∃ st', post (idx + j) = some st' ∧ 500 ≤ st') ∧
        post (idx + retries) = some st ∧ 500 ≤ st)) := by
  intro retries
  induction retries with
  | zero =>
      intro idx sl
      constructor
      · intro p s h
        rw [authLoop] at h
        rcases hpost : post idx with _ | st <;> rw [hpost] at h <;> simp only [] at h
        · obtain ⟨rfl, rfl⟩ : idx + 1 = p ∧ sl = s := by
            cases h; exact ⟨rfl, rfl⟩
          exact ⟨0, by omega, by omega, by simp [backoffs_zero], by omega, by simpa using hpost⟩
        · by_cases hlo : st < 500
          · rw [if_pos hlo] at h
            cases h
          · rw [if_neg hlo] at h
            simp only [if_true] at h
            cases h
      · intro st p s h
        rw [authLoop] at h
        rcases hpost : post idx with _ | st0 <;> rw [hpost] at h <;> simp only [] at h
        · cases h
        · by_cases hlo : st0 < 500
          · rw [if_pos hlo] at h
            obtain ⟨rfl, rfl, rfl⟩ : st0 = st ∧ idx + 1 = p ∧ sl = s := by
              cases h; exact ⟨rfl, rfl, rfl⟩
            exact Or.inl ⟨0, by omega, by omega, by simp [backoffs_zero],
              by omega, by simpa using hpost, hlo⟩
          · rw [if_neg hlo] at h
            simp only [if_true] at h
            obtain ⟨rfl, rfl, rfl⟩ :
                st0 = st ∧ idx + 1 = p ∧ sl ++ [(6 - 0) * 5] = s := by
              cases h; exact ⟨rfl, rfl, rfl⟩
            refine Or.inr ⟨by omega, by rw [show backoffs (0 + 1) (0 + 1) = [(6 - 0) * 5] from rfl],
              ?_, by simpa using hpost, by omega⟩
            intro j hj
            obtain rfl : j = 0 := by omega
            exact ⟨st0, by simpa using hpost, by omega⟩
  | succ r ih =>
      intro idx sl
      constructor
      · intro p s h
        rw [authLoop] at h
        rcases hpost : post idx with _ | st <;> rw [hpost] at h <;> simp only [] at h
        · obtain ⟨rfl, rfl⟩ : idx + 1 = p ∧ sl = s := by
            cases h; exact ⟨rfl, rfl⟩
          exact ⟨0, by omega, by omega, by simp [backoffs_zero], by omega, by simpa using hpost⟩
        · by_cases hlo : st < 500
          · rw [if_pos hlo] at h
            cases h
          · rw [if_neg hlo, if_neg (by omega : ¬(r + 1 = 0))] at h
            obtain ⟨htp, _⟩ := ih (idx + 1) (sl ++ [(6 - (r + 1)) * 5])
            obtain ⟨k, hk, hpk, hsk, hprev, hnone⟩ := htp p s h
            refine ⟨k + 1, by omega, by omega, ?_, ?_,
              by rw [show idx + (k + 1) = idx + 1 + k by omega]; exact hnone⟩
            · rw [hsk, List.append_assoc,
                show backoffs (r + 1 + 1) (k + 1) = (6 - (r + 1)) * 5 :: backoffs (r + 1) k
                  from backoffs_succ' (r + 1) k]
              rfl
            · intro j hj
              rcases j with _ | j'
              · exact ⟨st, by simpa using hpost, by omega⟩
              · obtain ⟨st', h1, h2⟩ := hprev j' (by omega)
                exact ⟨st', by rw [show idx + (j' + 1) = idx + 1 + j' by omega]; exact h1, h2⟩
      · intro st p s h
        rw [authLoop] at h
        rcases hpost : post idx with _ | st0 <;> rw [hpost] at h <;> simp only [] at h
        · cases h
        · by_cases hlo : st0 < 500
          · rw [if_pos hlo] at h
            obtain ⟨rfl, rfl, rfl⟩ : st0 = st ∧ idx + 1 = p ∧ sl = s := by
              cases h; exact ⟨rfl, rfl, rfl⟩
            exact Or.inl ⟨0, by omega, by omega, by simp [backoffs_zero],
              by omega, by simpa using hpost, hlo⟩
          · rw [if_neg hlo, if_neg (by omega : ¬(r + 1 = 0))] at h
            obtain ⟨_, hgr⟩ := ih (idx + 1) (sl ++ [(6 - (r + 1)) * 5])
            rcases hgr st p s h with ⟨k, hk, hpk, hsk, hprev, hsome, hok⟩ |
              ⟨hpk, hsk, hprev, hlast, hge⟩
            · refine Or.inl ⟨k + 1, by omega, by omega, ?_, ?_,
                by rw [show idx + (k + 1) = idx + 1 + k by omega]; exact hsome, hok⟩
              · rw [hsk, List.append_assoc,
                  show backoffs (r + 1 + 1) (k + 1) = (6 - (r + 1)) * 5 :: backoffs (r + 1) k
                    from backoffs_succ' (r + 1) k]
                rfl
              · intro j hj
                rcases j with _ | j'
                · exact ⟨st0, by simpa using hpost, by omega⟩
                · obtain ⟨st', h1, h2⟩ := hprev j' (by omega)
                  exact ⟨st', by rw [show idx + (j' + 1) = idx + 1 + j' by omega]; exact h1, h2⟩
            · refine Or.inr ⟨by omega, ?_, ?_, ?_, hge⟩
              · rw [hsk, List.append_assoc,
                  show backoffs (r + 1 + 1) (r + 1 + 1) =
                      (6 - (r + 1)) * 5 :: backoffs (r + 1) (r + 1)
                    from backoffs_succ' (r + 1) (r + 1)]
                rfl
              · intro j hj
                rcases j with _ | j'
                · exact ⟨st0, by simpa using hpost, by omega⟩
                · obtain ⟨st', h1, h2⟩ := hprev j' (by omega)
                  exact ⟨st', by rw [show idx + (j' + 1) = idx + 1 + j' by omega]; exact h1, h2⟩
              · rw [show idx + (r + 1) = idx + 1 + (r + 1) - 1 by omega]
                exact hlast

/-! ## Lemmas: SHA-256 digest shape and the pigeonhole collision -/

theorem shaRound_length (st : List Nat) (ki wi : Nat) :
    (shaRound st ki wi).length = st.length := by
  unfold shaRound
  split <;> simp_all

theorem foldlRounds_length (l : List (Nat × Nat)) (st : List Nat) :
    (l.foldl (fun st kw => shaRound st kw.1 kw.2) st).length = st.length := by
  induction l generalizing st with
  | nil => rfl
  | cons kw l ih => rw [List.foldl_cons, ih, shaRound_length]

theorem compressBlock_length (h block : List Nat) :
    (compressBlock h block).length = h.length := by
  unfold compressBlock
  rw [List.length_zipWith, foldlRounds_length]
  simp

theorem processBlocks_length (h ws : List Nat) : (processBlocks h ws).length = h.length := by
  induction h, ws using processBlocks.induct with
  | case1 h w0 w1 w2 w3 w4 w5 w6 w7 w8 w9 w10 w11 w12 w13 w14 w15 rest ih =>
      rw [processBlocks, ih, compressBlock_length]
  | case2 h ws hx =>
      rw [processBlocks]
      exact hx

theorem sha256Bytes_length (msg : List Nat) : (sha256Bytes msg).length = 32 := by
  unfold sha256Bytes
  have hfold : ∀ l : List Nat,
      (l.foldr (fun w acc => w / 16777216 % 256 :: w / 65536 % 256 :: w / 256 % 256 ::
        w % 256 :: acc) []).length = 4 * l.length := by
    intro l
    induction l with
    | nil => rfl
    | cons w l ih => simp only [List.foldr_cons, List.length_cons, ih]; omega
  rw [hfold, processBlocks_length]
  rfl

theorem sha256Bytes_valid (msg : List Nat) : ValidBytes (sha256Bytes msg) := by
  unfold sha256Bytes
  generalize processBlocks shaH0 (toWords (padMsg msg)) = hs
  induction hs with
  | nil => intro b hb; simp at hb
  | cons w l ih =>
      intro b hb
      simp only [List.foldr_cons, List.mem_cons] at hb
      rcases hb with rfl | rfl | rfl | rfl | hb
      · omega
      · omega
      · omega
      · omega
      · exact ih b hb

theorem byteVal_lt : ∀ l, ValidBytes l → byteVal l < 256 ^ l.length
  | [], _ => by simp [byteVal]
  | b :: rest, h => by
      have hb : b < 256 := h b (by simp)
      have ih := byteVal_lt rest (fun x hx => h x (by simp [hx]))
      simp only [byteVal, List.length_cons, pow_succ]
      calc b + 256 * byteVal rest < 256 * (byteVal rest + 1) := by omega
        _ ≤ 256 * 256 ^ rest.length := Nat.mul_le_mul_left 256 ih
        _ = 256 ^ rest.length * 256 := by ring

theorem byteVal_inj : ∀ l1 l2, l1.length = l2.length → ValidBytes l1 → ValidBytes l2 →
    byteVal l1 = byteVal l2 → l1 = l2
  | [], [], _, _, _, _ => rfl
  | [], _ :: _, h, _, _, _ => by simp at h
  | _ :: _, [], h, _, _, _ => by simp at h
  | a :: l1, b :: l2, hlen, h1, h2, heq => by
      have ha : a < 256 := h1 a (by simp)
      have hb : b < 256 := h2 b (by simp)
      simp only [byteVal] at heq
      have hab : a = b ∧ byteVal l1 = byteVal l2 := by omega
      obtain ⟨rfl, hv⟩ := hab
      have htail := byteVal_inj l1 l2 (by simpa using hlen)
        (fun x hx => h1 x (by simp [hx])) (fun x hx => h2 x (by simp [hx])) hv
      rw [htail]

theorem natToBytes_zero : natToBytes 0 = [] := by rw [natToBytes]; rfl

theorem natToBytes_pos {a : Nat} (ha : a ≠ 0) :
    natToBytes a = a % 256 :: natToBytes (a / 256) := by
  conv_lhs => rw [natToBytes]
  rw [dif_neg ha]

theorem natToBytes_inj : ∀ a b : Nat, natToBytes a = natToBytes b → a = b := by
  intro a
  induction a using Nat.strong_induction_on with
  | _ a ih =>
    intro b h
    by_cases ha : a = 0 <;> by_cases hb : b = 0
    · omega
    · subst ha
      rw [natToBytes_zero, natToBytes_pos hb] at h
      simp at h
    · subst hb
      rw [natToBytes_pos ha, natToBytes_zero] at h
      simp at h
    · rw [natToBytes_pos ha, natToBytes_pos hb] at h
      injection h with h1 h2
      have hq := ih (a / 256) (Nat.div_lt_self (by omega) (by omega)) (b / 256) h2
      omega

/-- SHA-256, as a function from arbitrary-length messages to a 256-bit
digest, provably has collisions (pigeonhole); so no universal statement
that distinct inputs hash differently can hold. -/
theorem sha256_collision : ∃ p1 p2 : List Nat, p1 ≠ p2 ∧ sha256Bytes p1 = sha256Bytes p2 := by
  have hcard : Fintype.card (Fin (2 ^ 256)) < Fintype.card (Fin (2 ^ 256 + 1)) := by
    rw [Fintype.card_fin, Fintype.card_fin]
    exact Nat.lt_succ_self _
  obtain ⟨x, y, hxy, hfeq⟩ := Fintype.exists_ne_map_eq_of_card_lt
    (fun k : Fin (2 ^ 256 + 1) =>
      (⟨byteVal (sha256Bytes (natToBytes k.val)), by
        have h1 := byteVal_lt _ (sha256Bytes_valid (natToBytes k.val))
        rw [sha256Bytes_length] at h1
        calc byteVal (sha256Bytes (natToBytes k.val)) < 256 ^ 32 := h1
          _ = 2 ^ 256 := by norm_num⟩ :
        Fin (2 ^ 256))) hcard
  refine ⟨natToBytes x.val, natToBytes y.val, ?_, ?_⟩
  · intro heq
    exact hxy (Fin.ext (natToBytes_inj _ _ heq))
  · have hv : byteVal (sha256Bytes (natToBytes x.val)) =
        byteVal (sha256Bytes (natToBytes y.val)) := by
      simpa using congrArg Fin.val hfeq
    exact byteVal_inj _ _ (by rw [sha256Bytes_length, sha256Bytes_length])
      (sha256Bytes_valid _) (sha256Bytes_valid _) hv

/-- The POST count and sleep list of an `auth` run are exactly those of
its login loop, whatever happens afterwards. -/
theorem auth_trace (a : authDataT) (post : Nat → Option Nat) (get : Option Nat)
    (hpw : a.EncodedPassword ≠ []) :
    (∃ p s, authLoop post 0 5 [] = .transportAbort p s ∧
      (auth ⟨false⟩ a post get).posts = p ∧ (auth ⟨false⟩ a post get).sleeps = s) ∨
    (∃ st p s, authLoop post 0 5 [] = .gotResp st p s ∧
      (auth ⟨false⟩ a post get).posts = p ∧ (auth ⟨false⟩ a post get).sleeps = s) := by
  rcases hl : authLoop post 0 5 [] with ⟨p, s⟩ | ⟨st, p, s⟩
  · refine Or.inl ⟨p, s, rfl, ?_, ?_⟩ <;> simp [auth, hpw, hl]
  · refine Or.inr ⟨st, p, s, rfl, ?_, ?_⟩ <;>
      · simp only [auth, hpw, hl]
        (repeat' split) <;> simp_all

/-! ## Claim theorems -/

/-- C1: The process-wide authenticated flag starts false (modelled from
the spec: the owning struct is declared outside this file, and false is
also the Go zero value); starting from an unauthenticated session the
flag becomes true only when the login loop delivered status 200 and the
verification GET returned 200; every non-ok outcome leaves it false
(empty secret included); and once true no call resets it — the only
assignment in the source sets it to true. -/
theorem claim_C1 :
    initIrdata.isAuthed = false ∧
    (∀ (i : Irdata) (a : authDataT) (post : Nat → Option Nat) (get : Option Nat),
      i.isAuthed = true → auth i a post get = ⟨true, .ok, 0, 0, []⟩) ∧
    (∀ (a : authDataT) (post : Nat → Option Nat) (get : Option Nat),
      ((auth ⟨false⟩ a post get).isAuthed = true →
        (∃ p s, authLoop post 0 5 [] = .gotResp 200 p s) ∧ get = some 200 ∧
          (auth ⟨false⟩ a post get).outcome = .ok) ∧
      ((auth ⟨false⟩ a post get).outcome ≠ .ok →
        (auth ⟨false⟩ a post get).isAuthed = false) ∧
      (a.EncodedPassword = [] →
        auth ⟨false⟩ a post get = ⟨false, .preconditionErr, 0, 0, []⟩)) := by
  refine ⟨rfl, ?_, ?_⟩
  · intro i a post get hi
    simp [auth, hi]
  · intro a post get
    by_cases hpw : a.EncodedPassword = []
    · have hav : auth ⟨false⟩ a post get = ⟨false, .preconditionErr, 0, 0, []⟩ := by
        simp [auth, hpw]
      rw [hav]
      exact ⟨by simp, fun _ => rfl, fun _ => rfl⟩
    · rcases hl : authLoop post 0 5 [] with ⟨p, s⟩ | ⟨st, p, s⟩
      · have hav : auth ⟨false⟩ a post get = ⟨false, .panicked, p, 0, s⟩ := by
          simp [auth, hpw, hl]
        rw [hav]
        exact ⟨by simp, fun _ => rfl, fun hc => absurd hc hpw⟩
      · by_cases h200 : st = 200
        · subst h200
          rcases get with _ | gs
          · have hav : auth ⟨false⟩ a post none = ⟨false, .panicked, p, 1, s⟩ := by
              simp [auth, hpw, hl]
            rw [hav]
            exact ⟨by simp, fun _ => rfl, fun hc => absurd hc hpw⟩
          · by_cases hg : gs = 200
            · subst hg
              have hav : auth ⟨false⟩ a post (some 200) = ⟨true, .ok, p, 1, s⟩ := by
                simp [auth, hpw, hl]
              rw [hav]
              exact ⟨fun _ => ⟨⟨p, s, rfl⟩, rfl, rfl⟩,
                fun hout => absurd rfl hout, fun hc => absurd hc hpw⟩
            · have hav : auth ⟨false⟩ a post (some gs) =
                  (if gs = 401 then ⟨false, .invalidCredsErr, p, 1, s⟩
                   else ⟨false, .authFailedErr, p, 1, s⟩) := by
                simp [auth, hpw, hl, hg]
              by_cases hg401 : gs = 401 <;> rw [hav]
              · rw [if_pos hg401]
                exact ⟨by simp, fun _ => rfl, fun hc => absurd hc hpw⟩
              · rw [if_neg hg401]
                exact ⟨by simp, fun _ => rfl, fun hc => absurd hc hpw⟩
        · have hav : auth ⟨false⟩ a post get = ⟨false, .authFailedErr, p, 0, s⟩ := by
            simp [auth, hpw, hl, h200]
          rw [hav]
          exact ⟨by simp, fun _ => rfl, fun hc => absurd hc hpw⟩

/-- C1 witness: an authenticated session stays authenticated through a
further call, and an empty secret leaves the flag false. -/
theorem claim_C1_witness :
    auth ⟨true⟩ ⟨[117], [112]⟩ (fun _ => some 503) (some 200) = ⟨true, .ok, 0, 0, []⟩ ∧
    auth ⟨false⟩ ⟨[117], []⟩ (fun _ => some 200) (some 200) =
      ⟨false, .preconditionErr, 0, 0, []⟩ :=
  ⟨claim_C1.2.1 ⟨true⟩ ⟨[117], [112]⟩ (fun _ => some 503) (some 200) rfl,
   (claim_C1.2.2 ⟨[117], []⟩ (fun _ => some 200) (some 200)).2.2 rfl⟩

/-- C4 counterexample: with every POST answered 503, the five backoff
sleeps of a full run are 10, 15, 20, 25 and 30 seconds — not the
5, 10, 15, 20, 25 the claim states (the source decrements the retry
counter before computing `(6 - retries) * 5`). -/
theorem claim_C4_counterexample :
    (auth ⟨false⟩ ⟨[117], [112]⟩ (fun _ => some 503) (some 200)).sleeps =
      [10, 15, 20, 25, 30] ∧
    ¬((auth ⟨false⟩ ⟨[117], [112]⟩ (fun _ => some 503) (some 200)).sleeps =
      [5, 10, 15, 20, 25]) := by
  exact ⟨by decide, by decide⟩

theorem backoffs_five (k : Nat) (hk : k ≤ 5) :
    backoffs 5 k = (List.range k).map (fun t => (t + 2) * 5) := by
  unfold backoffs
  apply List.map_congr_left
  intro a ha
  simp only [List.mem_range] at ha
  congr 1
  omega

/-- C4 (amended): the login loop makes at most 5 POST attempts, retries
only on statuses ≥ 500, stops at the first status < 500, and the k-th
backoff sleep is `(k + 2) * 5` seconds — 10 s, 15 s, 20 s, 25 s, 30 s —
the counter being decremented before the sleep is computed, with a sleep
even after a failed final attempt. -/
theorem claim_C4_amended : ∀ (a : authDataT) (post : Nat → Option Nat) (get : Option Nat),
    a.EncodedPassword ≠ [] →
    (auth ⟨false⟩ a post get).posts ≤ 5 ∧
    (auth ⟨false⟩ a post get).sleeps =
      (List.range (auth ⟨false⟩ a post get).sleeps.length).map (fun t => (t + 2) * 5) ∧
    (auth ⟨false⟩ a post get).sleeps.length ≤ 5 ∧
    (∀ j, j + 1 < (auth ⟨false⟩ a post get).posts →
      ∃ st, post j = some st ∧ 500 ≤ st) ∧
    (∀ j st, post j = some st → st < 500 →
      (∀ j', j' < j → ∃ st', post j' = some st' ∧ 500 ≤ st') →
      (auth ⟨false⟩ a post get).posts ≤ j + 1) := by
  intro a post get hpw
  obtain ⟨hT, hG⟩ := authLoop_spec post 4 0 []
  have hmain : ∃ k, k ≤ 5 ∧ (auth ⟨false⟩ a post get).posts ≤ 5 ∧
      (auth ⟨false⟩ a post get).posts ≤ k + 1 ∧
      (auth ⟨false⟩ a post get).sleeps = backoffs 5 k ∧
      (∀ j, j < k → ∃ st, post j = some st ∧ 500 ≤ st) ∧
      (∀ j st, post j = some st → st < 500 → k ≤ j) := by
    rcases auth_trace a post get hpw with ⟨p, s, hl, hposts, hsleeps⟩ |
      ⟨st, p, s, hl, hposts, hsleeps⟩
    · obtain ⟨k, hk, hpk, hsk, hprev, hnone⟩ := hT p s hl
      refine ⟨k, by omega, by omega, by omega, ?_, ?_, ?_⟩
      · rw [hsleeps, hsk]
        simp
      · intro j hj
        obtain ⟨st', h1, h2⟩ := hprev j hj
        exact ⟨st', by simpa using h1, h2⟩
      · intro j st hsome hlt
        by_contra hc
        obtain ⟨st', h1, h2⟩ := hprev j (by omega)
        rw [show (0 : Nat) + j = j by omega, hsome] at h1
        obtain rfl : st' = st := by simpa using h1.symm
        omega
    · rcases hG st p s hl with ⟨k, hk, hpk, hsk, hprev, hsome, hok⟩ |
        ⟨hpk, hsk, hprev, hlast, hge⟩
      · refine ⟨k, by omega, by omega, by omega, ?_, ?_, ?_⟩
        · rw [hsleeps, hsk]
          simp
        · intro j hj
          obtain ⟨st', h1, h2⟩ := hprev j hj
          exact ⟨st', by simpa using h1, h2⟩
        · intro j st' hsome' hlt
          by_contra hc
          obtain ⟨st'', h1, h2⟩ := hprev j (by omega)
          rw [show (0 : Nat) + j = j by omega, hsome'] at h1
          obtain rfl : st'' = st' := by simpa using h1.symm
          omega
      · refine ⟨5, by omega, by omega, by omega, ?_, ?_, ?_⟩
        · rw [hsleeps, hsk]
          simp
        · intro j hj
          obtain ⟨st', h1, h2⟩ := hprev j (by omega)
          exact ⟨st', by simpa using h1, h2⟩
        · intro j st' hsome' hlt
          by_contra hc
          obtain ⟨st'', h1, h2⟩ := hprev j (by omega)
          rw [show (0 : Nat) + j = j by omega, hsome'] at h1
          obtain rfl : st'' = st' := by simpa using h1.symm
          omega
  obtain ⟨k, hk5, hp5, hp1, hsl, hprev, hstop⟩ := hmain
  have hslen : (auth ⟨false⟩ a post get).sleeps.length = k := by
    rw [hsl]
    unfold backoffs
    simp
  refine ⟨hp5, ?_, by omega, ?_, ?_⟩
  · rw [hslen, hsl]
    exact backoffs_five k hk5
  · intro j hj
    exact hprev j (by omega)
  · intro j st hsome hlt hall
    have := hstop j st hsome hlt
    omega

/-- C4 witness: the amended bounds at a concrete all-503 stream. -/
theorem claim_C4_witness :
    (auth ⟨false⟩ ⟨[117], [112]⟩ (fun _ => some 503) (some 200)).posts ≤ 5 :=
  (claim_C4_amended ⟨[117], [112]⟩ (fun _ => some 503) (some 200) (by simp)).1

/-- C5: a transport-level failure of the login POST (after any run of
retryable 500s) aborts the call at once as a fatal error: exactly the
POSTs so far plus the failing one, no verification GET, and no backoff
sleep after the failure. -/
theorem claim_C5 : ∀ (a : authDataT) (post : Nat → Option Nat) (get : Option Nat) (k : Nat),
    a.EncodedPassword ≠ [] → k < 5 →
    (∀ j, j < k → ∃ st, post j = some st ∧ 500 ≤ st) → post k = none →
    auth ⟨false⟩ a post get = ⟨false, .panicked, k + 1, 0, backoffs 5 k⟩ := by
  intro a post get k hpw hk hprev hnone
  obtain ⟨hT, hG⟩ := authLoop_spec post 4 0 []
  rcases hl : authLoop post 0 5 [] with ⟨p, s⟩ | ⟨st, p, s⟩
  · obtain ⟨k', hk', hpk, hsk, hprev', hnone'⟩ := hT p s hl
    have hkk : k' = k := by
      by_contra hne
      rcases Nat.lt_or_ge k' k with hlt | hge
      · obtain ⟨st', h1, _⟩ := hprev k' hlt
        rw [show (0 : Nat) + k' = k' by omega, h1] at hnone'
        cases hnone'
      · obtain ⟨st', h1, _⟩ := hprev' k (by omega)
        rw [show (0 : Nat) + k = k by omega, hnone] at h1
        cases h1
    have hav : auth ⟨false⟩ a post get = ⟨false, .panicked, p, 0, s⟩ := by
      simp [auth, hpw, hl]
    rw [hav, show p = k + 1 by omega, show s = backoffs 5 k by rw [hsk, hkk]; simp]
  · exfalso
    rcases hG st p s hl with ⟨k', hk', _, _, hprev', hsome, hok⟩ |
      ⟨_, _, hprev', _, _⟩
    · rcases Nat.lt_trichotomy k' k with hlt | rfl | hgt
      · obtain ⟨st', h1, hge'⟩ := hprev k' hlt
        rw [show (0 : Nat) + k' = k' by omega, h1] at hsome
        obtain rfl : st' = st := by simpa using hsome
        omega
      · rw [show (0 : Nat) + k' = k' by omega, hnone] at hsome
        cases hsome
      · obtain ⟨st', h1, _⟩ := hprev' k hgt
        rw [show (0 : Nat) + k = k by omega, hnone] at h1
        cases h1
    · obtain ⟨st', h1, _⟩ := hprev' k (by omega)
      rw [show (0 : Nat) + k = k by omega, hnone] at h1
      cases h1

/-- C5 witness: a transport failure on the very first POST aborts with
one POST, no GET and no sleep. -/
theorem claim_C5_witness :
    auth ⟨false⟩ ⟨[117], [112]⟩ (fun _ => none) (some 200) =
      ⟨false, .panicked, 1, 0, []⟩ := by
  have h := claim_C5 ⟨[117], [112]⟩ (fun _ => none) (some 200) 0 (by simp) (by omega)
    (fun j hj => absurd hj (by omega)) rfl
  simpa [backoffs] using h

/-- C2: For every credentials record and every valid key, decrypting the
envelope produced by save with the same key returns exactly the original
record: `readCreds` after `writeCreds` yields the record. -/
theorem claim_C2 : ∀ (mode : Nat) (keyContent key : List Nat) (rec : authDataT)
    (nonce env : List Nat),
    getKey mode keyContent = .ok key → aesKeyOk key = true →
    ValidBytes rec.Username → ValidBytes rec.EncodedPassword →
    nonce.length = 12 → ValidBytes nonce →
    (writeCreds mode keyContent rec nonce).result = .ok env →
    (readCreds mode keyContent env).result = .ok rec := by
  intro mode keyContent key rec nonce env hk hak hu hp hn hnv hw
  obtain ⟨key', hk', hak', rfl⟩ := writeCreds_ok hw
  obtain rfl : key' = key := by
    rw [hk] at hk'
    exact (by simpa using hk' : key = key').symm
  exact readCreds_ok hk hak hu hp hn hnv

set_option maxRecDepth 100000 in
/-- C2 witness: a concrete 16-byte key, 12-byte nonce and record
round-trip through the store. -/
theorem claim_C2_witness :
    (readCreds 256 (encB64 (List.range 16))
      (encB64 (List.range 12 ++ gcmSeal (List.range 16) (List.range 12)
        (gobEnc ⟨[1], [2]⟩) additionalContext))).result = .ok ⟨[1], [2]⟩ :=
  claim_C2 256 (encB64 (List.range 16)) (List.range 16) ⟨[1], [2]⟩ (List.range 12)
    (encB64 (List.range 12 ++ gcmSeal (List.range 16) (List.range 12)
      (gobEnc ⟨[1], [2]⟩) additionalContext))
    (by decide) (by decide) (by decide) (by decide) (by decide) (by decide) (by decide)

/-- C6: Key loading fails with the permission error when the key file's
permission bits are not exactly 0400 — and then the key buffer never
materializes, so no cipher operation is attempted — and both save and
load abort with the key-size error when the decoded key length is not
16, 24 or 32. -/
theorem claim_C6 : ∀ (mode : Nat) (keyContent : List Nat) (rec : authDataT)
    (nonce file key : List Nat),
    (mode % 512 ≠ 256 →
      (writeCreds mode keyContent rec nonce).result = .error .permErr ∧
      (writeCreds mode keyContent rec nonce).keyMem = none ∧
      (readCreds mode keyContent file).result = .error .permErr ∧
      (readCreds mode keyContent file).keyMem = none) ∧
    (getKey mode keyContent = .ok key →
      ¬(key.length = 16 ∨ key.length = 24 ∨ key.length = 32) →
      (writeCreds mode keyContent rec nonce).result = .error .keySizeErr ∧
      (readCreds mode keyContent file).result = .error .keySizeErr) := by
  intro mode keyContent rec nonce file key
  constructor
  · intro hmode
    have hk : getKey mode keyContent = .error .permErr := by
      unfold getKey
      rw [if_pos hmode]
    refine ⟨?_, ?_, ?_, ?_⟩
    · unfold writeCreds
      rw [hk]
    · unfold writeCreds
      rw [hk]
    · unfold readCreds
      rw [hk]
    · unfold readCreds
      rw [hk]
  · intro hk hlen
    have hak : aesKeyOk key = false := by
      unfold aesKeyOk
      simp only [Bool.or_eq_false_iff, decide_eq_false_iff_not]
      omega
    constructor
    · unfold writeCreds
      rw [hk]
      simp only []
      rw [if_neg (by simp [hak])]
    · unfold readCreds
      rw [hk]
      simp only []
      rw [if_neg (by simp [hak])]

/-- C6 witness: permission bits 0644 are rejected before any cipher work,
and a 3-byte key aborts both save and load with the key-size error. -/
theorem claim_C6_witness :
    (writeCreds 420 (encB64 (List.range 16)) ⟨[1], [2]⟩ (List.range 12)).result =
      .error .permErr ∧
    (readCreds 420 (encB64 (List.range 16)) []).keyMem = none ∧
    (writeCreds 256 (encB64 [1, 2, 3]) ⟨[1], [2]⟩ (List.range 12)).result =
      .error .keySizeErr ∧
    (readCreds 256 (encB64 [1, 2, 3]) []).result = .error .keySizeErr :=
  ⟨(claim_C6 420 (encB64 (List.range 16)) ⟨[1], [2]⟩ (List.range 12) [] []).1
      (by decide) |>.1,
   (claim_C6 420 (encB64 (List.range 16)) ⟨[1], [2]⟩ (List.range 12) [] []).1
      (by decide) |>.2.2.2,
   (claim_C6 256 (encB64 [1, 2, 3]) ⟨[1], [2]⟩ (List.range 12) [] [1, 2, 3]).2
      (by decide) (by decide) |>.1,
   (claim_C6 256 (encB64 [1, 2, 3]) ⟨[1], [2]⟩ (List.range 12) [] [1, 2, 3]).2
      (by decide) (by decide) |>.2⟩

/-- C7: `shred` overwrites every byte of the in-memory key with the fixed
non-zero sentinel 0x69, and in both save and load this happens right
after the key is consumed by the cipher constructor — the key buffer
holds only sentinel bytes afterwards even when cipher construction fails
(no key-length hypothesis below). -/
theorem claim_C7 : ∀ (mode : Nat) (keyContent key : List Nat) (rec : authDataT)
    (nonce file : List Nat),
    getKey mode keyContent = .ok key →
    (shred key).length = key.length ∧ (∀ b ∈ shred key, b = 105) ∧ (105 : Nat) ≠ 0 ∧
    (writeCreds mode keyContent rec nonce).keyMem = some (List.replicate key.length 105) ∧
    (readCreds mode keyContent file).keyMem = some (List.replicate key.length 105) := by
  intro mode keyContent key rec nonce file hk
  refine ⟨by simp [shred], ?_, by omega, writeCreds_keyMem hk, readCreds_keyMem hk⟩
  intro b hb
  simp [shred] at hb
  exact hb.2

/-- C7 witness: a 3-byte key (so the cipher constructor fails) is still
fully overwritten with the sentinel. -/
theorem claim_C7_witness :
    (writeCreds 256 (encB64 [1, 2, 3]) ⟨[1], [2]⟩ (List.range 12)).keyMem =
      some [105, 105, 105] ∧
    (writeCreds 256 (encB64 [1, 2, 3]) ⟨[1], [2]⟩ (List.range 12)).result =
      .error .keySizeErr := by
  refine ⟨?_, by decide⟩
  have h := (claim_C7 256 (encB64 [1, 2, 3]) [1, 2, 3] ⟨[1], [2]⟩ (List.range 12) []
    (by decide)).2.2.2.1
  simpa using h

/-- C9: `auth` is idempotent after success: with the flag already set the
call returns success at once, the flag stays set, and zero login POSTs,
zero verification GETs and zero sleeps are performed. -/
theorem claim_C9 : ∀ (a : authDataT) (post : Nat → Option Nat) (get : Option Nat),
    auth ⟨true⟩ a post get = ⟨true, .ok, 0, 0, []⟩ :=
  fun _ _ _ => rfl

set_option maxRecDepth 100000 in
/-- C10: the nonce split of `readCreds` is unguarded: for decoded content
shorter than the 12-byte nonce the split has no well-defined value (a
slice-bounds panic in Go), and this branch is reachable — an empty
credential file (valid base64 for the empty byte string) hits it. -/
theorem claim_C10 :
    (∀ data : List Nat, data.length < 12 → nonceSplit data = none) ∧
    (readCreds 256 (encB64 (List.range 16)) []).result = .error .sliceBoundsErr := by
  constructor
  · intro data h
    unfold nonceSplit gcmNonceSize
    rw [if_pos h]
  · decide

/-- C10 witness: a concrete short decode hits the unguarded branch. -/
theorem claim_C10_witness :
    nonceSplit [0, 1, 2] = none ∧
    (readCreds 256 (encB64 (List.range 16)) []).result = .error .sliceBoundsErr :=
  ⟨claim_C10.1 [0, 1, 2] (by simp), claim_C10.2⟩

set_option maxRecDepth 1000000 in
/-- C3 counterexample: not every single-bit flip of a saved envelope
fails with the AEAD integrity error — flipping the top bit of the first
envelope character makes the file invalid base64, so the load aborts at
the base64 decode with a format error, a different abort site. -/
theorem claim_C3_counterexample :
    (readCreds 256 (encB64 (List.range 16))
      (flipBit (encB64 (List.range 12 ++ gcmSeal (List.range 16) (List.range 12)
        (gobEnc ⟨[1], [2]⟩) additionalContext)) 0 7)).result = .error .b64FormatErr ∧
    CredErr.b64FormatErr ≠ CredErr.integrityErr := by
  exact ⟨by decide, by decide⟩

/-- C3 (amended): decryption fails closed.  Opening a saved envelope with
a different key fails with the AEAD integrity error; flipping any single
bit of the stored envelope text makes the load fail — with the AEAD
integrity error, or with the base64 format error when the flip corrupts
the base64 text — and never returns a record; and opening under any
other associated-data context tag fails. -/
theorem claim_C3_amended :
    (∀ (mode1 : Nat) (kc1 : List Nat) (mode2 : Nat) (kc2 key1 key2 : List Nat)
      (rec : authDataT) (nonce env : List Nat),
      getKey mode1 kc1 = .ok key1 → getKey mode2 kc2 = .ok key2 →
      aesKeyOk key2 = true → key2 ≠ key1 →
      ValidBytes rec.Username → ValidBytes rec.EncodedPassword →
      nonce.length = 12 → ValidBytes nonce →
      (writeCreds mode1 kc1 rec nonce).result = .ok env →
      (readCreds mode2 kc2 env).result = .error .integrityErr) ∧
    (∀ (mode : Nat) (kc key : List Nat) (rec : authDataT) (nonce : List Nat) (i j : Nat),
      getKey mode kc = .ok key → aesKeyOk key = true →
      ValidBytes rec.Username → ValidBytes rec.EncodedPassword →
      nonce.length = 12 → ValidBytes nonce →
      i < (encB64 (nonce ++ gcmSeal key nonce (gobEnc rec) additionalContext)).length →
      j < 8 →
      (readCreds mode kc (flipBit
        (encB64 (nonce ++ gcmSeal key nonce (gobEnc rec) additionalContext)) i j)).result =
          .error .integrityErr ∨
      (readCreds mode kc (flipBit
        (encB64 (nonce ++ gcmSeal key nonce (gobEnc rec) additionalContext)) i j)).result =
          .error .b64FormatErr) ∧
    (∀ key nonce pt ad' : List Nat, ad' ≠ additionalContext →
      gcmOpen key nonce (gcmSeal key nonce pt additionalContext) ad' = none) := by
  refine ⟨?_, ?_, ?_⟩
  · intro mode1 kc1 mode2 kc2 key1 key2 rec nonce env hk1 hk2 hak2 hne hu hp hn hnv hw
    obtain ⟨key1', hk1', hak1', rfl⟩ := writeCreds_ok hw
    obtain rfl : key1' = key1 := by
      rw [hk1] at hk1'
      exact (by simpa using hk1' : key1 = key1').symm
    have hkv1 : ValidBytes key1' := (decB64_canon kc1 key1' (getKey_eq_ok hk1).2).2
    have hdv : ValidBytes (nonce ++ gcmSeal key1' nonce (gobEnc rec) additionalContext) :=
      validBytes_append.mpr ⟨hnv, validBytes_gcmSeal hkv1 hnv (validBytes_gobEnc hu hp)
        validBytes_additionalContext⟩
    have hdec := decB64_encB64 _ hdv
    have hlen12 : 12 ≤ (nonce ++ gcmSeal key1' nonce (gobEnc rec) additionalContext).length := by
      simp [List.length_append, hn]
    rw [readCreds_open hk2 hak2 hdec hlen12]
    have ht : (nonce ++ gcmSeal key1' nonce (gobEnc rec) additionalContext).take 12 = nonce := by
      rw [show (12 : Nat) = nonce.length from hn.symm]
      exact List.take_left _ _
    have hd : (nonce ++ gcmSeal key1' nonce (gobEnc rec) additionalContext).drop 12 =
        gcmSeal key1' nonce (gobEnc rec) additionalContext := by
      rw [show (12 : Nat) = nonce.length from hn.symm]
      exact List.drop_left _ _
    rw [ht, hd, gcmOpen_wrong_key hne]
  · intro mode kc key rec nonce i j hk hak hu hp hn hnv hi hj
    exact readCreds_flip hk hak hu hp hn hnv i j hi hj
  · intro key nonce pt ad' hne
    exact gcmOpen_wrong_ad hne

set_option maxRecDepth 1000000 in
/-- C3 witness: a concrete envelope sealed under one 16-byte key fails
with the integrity error when read under a different 16-byte key. -/
theorem claim_C3_witness :
    (readCreds 256 (encB64 ((List.range 16).map (fun x => x + 1)))
      (encB64 (List.range 12 ++ gcmSeal (List.range 16) (List.range 12)
        (gobEnc ⟨[1], [2]⟩) additionalContext))).result = .error .integrityErr :=
  claim_C3_amended.1 256 (encB64 (List.range 16)) 256
    (encB64 ((List.range 16).map (fun x => x + 1)))
    (List.range 16) ((List.range 16).map (fun x => x + 1)) ⟨[1], [2]⟩ (List.range 12)
    (encB64 (List.range 12 ++ gcmSeal (List.range 16) (List.range 12)
      (gobEnc ⟨[1], [2]⟩) additionalContext))
    (by decide) (by decide) (by decide) (by decide) (by decide) (by decide) (by decide)
    (by decide) (by decide)

/-- C8 counterexample: the claim that distinct passwords always yield
distinct tokens is false in principle: a 256-bit digest of arbitrary-
length messages has collisions by pigeonhole, so for some username and
some pair of distinct passwords the encoded tokens coincide. -/
theorem claim_C8_counterexample :
    ¬(∀ u p1 p2 : List Nat, p1 ≠ p2 → encodePassword u p1 ≠ encodePassword u p2) := by
  intro h
  obtain ⟨p1, p2, hne, heq⟩ := sha256_collision
  exact h [] p1 p2 hne (by simp [encodePassword, toLowerBytes, heq])

set_option maxRecDepth 1000000 in
/-- C8 (amended): `encodePassword` is the standard padded base64 encoding
of the SHA-256 digest of the raw password bytes followed by the
lower-cased username bytes; it is invariant under username letter case;
and password sensitivity holds for the spec's concrete instance (distinct
passwords cannot yield distinct tokens universally — digest pigeonhole —
only computationally). -/
theorem claim_C8_amended :
    (∀ u p : List Nat, encodePassword u p = encB64 (sha256Bytes (p ++ toLowerBytes u))) ∧
    (∀ u1 u2 p : List Nat, toLowerBytes u1 = toLowerBytes u2 →
      encodePassword u1 p = encodePassword u2 p) ∧
    encodePassword [117, 115, 101, 114, 64, 101, 120, 97, 109, 112, 108, 101, 46, 99, 111, 109]
        [115, 101, 99, 114, 101, 116] =
      encodePassword [85, 83, 69, 82, 64, 69, 88, 65, 77, 80, 76, 69, 46, 67, 79, 77]
        [115, 101, 99, 114, 101, 116] ∧
    encodePassword [117, 115, 101, 114, 64, 101, 120, 97, 109, 112, 108, 101, 46, 99, 111, 109]
        [115, 101, 99, 114, 101, 116] ≠
      encodePassword [117, 115, 101, 114, 64, 101, 120, 97, 109, 112, 108, 101, 46, 99, 111, 109]
        [115, 101, 99, 114, 101, 116, 50] := by
  refine ⟨fun u p => rfl, ?_, by decide, by decide⟩
  intro u1 u2 p h
  unfold encodePassword
  rw [h]

/-- C8 witness: case-invariance applied at a concrete username pair. -/
theorem claim_C8_witness :
    encodePassword [85] [7] = encodePassword [117] [7] :=
  claim_C8_amended.2.1 [85] [117] [7] (by decide)

end Irapi
